import Mathlib

/-!
Verification development for the `sip` repository: a shallow embedding of the
wire codec (Message.go, request/response readers and writers), the body reader
state machine, the transaction close logic (Transaction.go) and the provider
registry/shutdown logic (TimeoutEvent.go provider), together with theorems
settling the specification claims.

Bytes on the wire are modelled as `List Nat` (byte values).  Fallible Go code
returns `Option`/`Except`.  Go channels that are only ever closed are a
`Bool` flag plus the rule that closing a closed channel is a fault (`none`).
-/

deriving instance DecidableEq for Except

namespace Sip

/-- A wire byte stream: each element is one byte value. -/
abbrev Bytes := List Nat

/-- Convert a Lean string literal to its byte list (ASCII inputs only are
used in this development); convenience for concrete test vectors. -/
def strBytes (s : String) : Bytes := s.toList.map Char.toNat

/-- The header section: an insertion-ordered multimap from header name to the
ordered list of its values.  Modelled from the spec: the repository casts
`textproto.MIMEHeader` to a named `Header` type whose definition is not under
src/; the spec (section 3, Header Map) fixes it as an ordered multimap whose
iteration order is insertion order. -/
abbrev Header := List (Bytes × List Bytes)

/-- Look up the value list of a key (Go `map` indexing: missing key gives the
empty list). -/
def hGet : Header → Bytes → List Bytes
| [], _ => []
| (k', vs) :: t, k => if k' = k then vs else hGet t k

/-- Append one value under a key, keeping insertion order
(`m[key] = append(m[key], value)` on the ordered-multimap model). -/
def hAdd : Header → Bytes → Bytes → Header
| [], k, v => [(k, [v])]
| (k', vs) :: t, k, v => if k' = k then (k', vs ++ [v]) :: t else (k', vs) :: hAdd t k v

/-- Delete a key (`Header.Del` / Go `delete(map, key)`). -/
def hDel : Header → Bytes → Header
| [], _ => []
| (k', vs) :: t, k => if k' = k then hDel t k else (k', vs) :: hDel t k

/-- ASCII upper-casing of one byte (`'a'..'z'` map down by 32). -/
def byteToUpper (b : Nat) : Nat := if 97 ≤ b ∧ b ≤ 122 then b - 32 else b

/-- ASCII lower-casing of one byte (`'A'..'Z'` map up by 32). -/
def byteToLower (b : Nat) : Nat := if 65 ≤ b ∧ b ≤ 90 then b + 32 else b

/-- Go `net/textproto` token-byte test used by canonicalMIMEHeaderKey:
digits, letters, and the legal header-name punctuation. -/
def validHeaderFieldByte (b : Nat) : Bool :=
  (48 ≤ b && b ≤ 57) || (65 ≤ b && b ≤ 90) || (97 ≤ b && b ≤ 122) ||
  b = 33 || b = 35 || b = 36 || b = 37 || b = 38 || b = 39 || b = 42 ||
  b = 43 || b = 45 || b = 46 || b = 94 || b = 95 || b = 96 || b = 124 || b = 126

/-- Case-normalisation pass of canonicalMIMEHeaderKey: upper-case the first
byte and every byte following a hyphen (45), lower-case the rest. -/
def canonAux : Bool → Bytes → Bytes
| _, [] => []
| true, c :: t => byteToUpper c :: canonAux (c = 45) t
| false, c :: t => byteToLower c :: canonAux (c = 45) t

/-- Go `textproto.CanonicalMIMEHeaderKey`: keys containing a byte that is not
a legal token byte are returned unchanged, otherwise the case-normalisation
pass is applied. -/
def canonicalMIMEHeaderKey (k : Bytes) : Bytes :=
  if k.all validHeaderFieldByte then canonAux true k else k

/-- Index of the first occurrence of byte `b` (Go `strings.Index` for a
one-byte pattern; `none` plays the role of `-1`). -/
def idxOf (b : Nat) : Bytes → Option Nat
| [] => none
| c :: t => if c = b then some 0 else (idxOf b t).map (· + 1)

/-- Split at the first LF byte; the returned pair is (bytes before LF, bytes
after LF).  `none` means the stream ended without a line terminator. -/
def splitAtLF : Bytes → Option (Bytes × Bytes)
| [] => none
| c :: t => if c = 10 then some ([], t) else (splitAtLF t).map (fun p => (c :: p.1, p.2))

/-- Drop one trailing CR byte if present (textproto strips "\r\n" or "\n"). -/
def stripCR (l : Bytes) : Bytes := if l.getLast? = some 13 then l.dropLast else l

/-- Go `textproto.Reader.ReadLine`: one line up to and excluding its
terminator, plus the rest of the stream. -/
def readLine (bs : Bytes) : Option (Bytes × Bytes) :=
  (splitAtLF bs).map (fun p => (stripCR p.1, p.2))

/-- Drop leading space/tab bytes of a header value (textproto skips the
whitespace that follows the colon). -/
def skipLeadingWS : Bytes → Bytes
| [] => []
| c :: t => if c = 32 ∨ c = 9 then skipLeadingWS t else c :: t

/-- One header line per iteration; stops at the empty line.  Fuel-recursive
model of Go `textproto.Reader.ReadMIMEHeader` (each iteration consumes at
least the LF byte, so `bs.length + 1` fuel always suffices).  Header-line
folding (continuation lines starting with whitespace) is not modelled: the
serializer never emits folded lines, and a folded input denotes the same
joined value an unfolded input does. -/
def readMIMEHeaderAux : Nat → Header → Bytes → Option (Header × Bytes)
| 0, _, _ => none
| fuel + 1, h, bs =>
  match readLine bs with
  | none => none
  | some (line, rest) =>
    if line = [] then some (h, rest)
    else
      match idxOf 58 line with
      | none => none
      | some i =>
        readMIMEHeaderAux fuel
          (hAdd h (canonicalMIMEHeaderKey (line.take i)) (skipLeadingWS (line.drop (i + 1))))
          rest

/-- Parse the header section: header lines until a blank line, then the rest
of the stream (the body bytes). -/
def readMIMEHeader (bs : Bytes) : Option (Header × Bytes) :=
  readMIMEHeaderAux (bs.length + 1) [] bs

/-- Whitespace test of Go `strings.TrimSpace` restricted to ASCII. -/
def isWSByte (b : Nat) : Bool := b = 32 || b = 9 || b = 10 || b = 11 || b = 12 || b = 13

/-- Drop leading whitespace bytes. -/
def trimLeftWS : Bytes → Bytes
| [] => []
| c :: t => if isWSByte c then trimLeftWS t else c :: t

/-- Go `strings.TrimSpace` (ASCII whitespace): drop leading whitespace, then
drop trailing whitespace by trimming the reversal. -/
def trimSpace (bs : Bytes) : Bytes := (trimLeftWS (trimLeftWS bs).reverse).reverse

/-- Decimal-digit run to a number; `none` if empty or a non-digit occurs. -/
def digitsToNatAux : Nat → Bytes → Option Nat
| acc, [] => some acc
| acc, c :: t => if 48 ≤ c ∧ c ≤ 57 then digitsToNatAux (acc * 10 + (c - 48)) t else none

/-- All-digit byte run to its value, requiring at least one digit. -/
def digitsToNat (bs : Bytes) : Option Nat :=
  if bs = [] then none else digitsToNatAux 0 bs

/-- Go `strconv.Atoi` (64-bit): optional sign, then digits; errors outside
the signed 64-bit range. -/
def goAtoi (bs : Bytes) : Option Int :=
  match bs with
  | [] => none
  | b :: t =>
    if b = 43 then
      (digitsToNat t).bind (fun n => if n ≤ 2 ^ 63 - 1 then some (n : Int) else none)
    else if b = 45 then
      (digitsToNat t).bind (fun n => if n ≤ 2 ^ 63 then some (-(n : Int)) else none)
    else
      (digitsToNat bs).bind (fun n => if n ≤ 2 ^ 63 - 1 then some (n : Int) else none)

/-- Go `strconv.ParseInt(cl, 10, 32)`: as goAtoi but confined to 32 bits. -/
def goParseInt32 (bs : Bytes) : Option Int :=
  match bs with
  | [] => none
  | b :: t =>
    if b = 43 then
      (digitsToNat t).bind (fun n => if n ≤ 2 ^ 31 - 1 then some (n : Int) else none)
    else if b = 45 then
      (digitsToNat t).bind (fun n => if n ≤ 2 ^ 31 then some (-(n : Int)) else none)
    else
      (digitsToNat bs).bind (fun n => if n ≤ 2 ^ 31 - 1 then some (n : Int) else none)

/-- The protocol version literal "SIP/2.0". -/
def sipLit : Bytes := [83, 73, 80, 47, 50, 46, 48]

/-- The bytes of "SIP/" (the required start of a version token). -/
def sipSlash : Bytes := [83, 73, 80, 47]

/-- Does `pat` occur as an initial segment of `s` (Go strings.HasPrefix)? -/
def bytesHasStart : Bytes → Bytes → Bool
| [], _ => true
| _ :: _, [] => false
| a :: t, b :: u => a = b && bytesHasStart t u

/-- Message.go ParseSIPVersion: "SIP/2.0" directly; otherwise the token must
start with "SIP/" and contain a dot, and both numeric components must parse
(Atoi) as non-negative integers at most 1000000 (`Big`). -/
def ParseSIPVersion (vers : Bytes) : Option (Int × Int) :=
  if vers = sipLit then some (2, 0)
  else if !(bytesHasStart sipSlash vers) then none
  else
    match idxOf 46 vers with
    | none => none
    | some dot =>
      match goAtoi ((vers.drop 4).take (dot - 4)) with
      | none => none
      | some major =>
        if major < 0 ∨ 1000000 < major then none
        else
          match goAtoi (vers.drop (dot + 1)) with
          | none => none
          | some minor =>
            if minor < 0 ∨ 1000000 < minor then none else some (major, minor)

/-- part_003 parseRequestLine: split "METHOD URI PROTO" at the first two
space bytes; fewer than two spaces is a failure. -/
def parseRequestLine (line : Bytes) : Option (Bytes × Bytes × Bytes) :=
  match idxOf 32 line with
  | none => none
  | some s1 =>
    match idxOf 32 (line.drop (s1 + 1)) with
    | none => none
    | some s2 =>
      some (line.take s1, (line.drop (s1 + 1)).take s2, (line.drop (s1 + 1)).drop (s2 + 1))

/-- Go `strings.SplitN(line, " ", 3)` on the byte model. -/
def splitN3 (line : Bytes) : List Bytes :=
  match idxOf 32 line with
  | none => [line]
  | some i =>
    match idxOf 32 (line.drop (i + 1)) with
    | none => [line.take i, line.drop (i + 1)]
    | some j =>
      [line.take i, (line.drop (i + 1)).take j, (line.drop (i + 1)).drop (j + 1)]

/-- Message.go parseContentLength: trim whitespace; empty means -1 (no
value); otherwise a 32-bit parse that must be non-negative. -/
def parseContentLength (cl : Bytes) : Option Int :=
  let t := trimSpace cl
  if t = [] then some (-1)
  else
    match goParseInt32 t with
    | none => none
    | some n => if n < 0 then none else some n

/-- Errors surfaced by a read on a body (`io.EOF`, `io.ErrUnexpectedEOF`,
`ErrBodyReadAfterClose`). -/
inductive BodyErr where
| eofE
| unexpectedEofE
| bodyReadAfterClose
deriving DecidableEq

/-- State of the `body` struct of Message.go: the `io.LimitedReader` source
(`srcN` bytes still allowed, over the remaining finite underlying stream
`srcData`), plus the `sawEOF` and `closed` flags. -/
structure BodyState where
  srcN : Nat
  srcData : Bytes
  sawEOF : Bool
  closed : Bool
deriving DecidableEq

/-- A parsed message body: either the shared always-EOF reader used when no
body bytes are declared (`eofReader`), or a `body` value over a limited
reader. -/
inductive BodyVal where
| eofR
| bodyR (st : BodyState)
deriving DecidableEq

/-- One `Read(p)` call on the `io.LimitedReader` wrapping the remaining
stream: at most `p` bytes, at most `srcN` bytes, at most what the underlying
stream still holds; the Bool result is the EOF signal.  Returns
(bytes read, eof, new srcN, new srcData). -/
def lrRead (srcN : Nat) (data : Bytes) (p : Nat) : Bytes × Bool × Nat × Bytes :=
  if srcN = 0 then ([], true, 0, data)
  else if data = [] then ([], true, srcN, data)
  else
    let t := min (min p srcN) data.length
    (data.take t, false, srcN - t, data.drop t)

/-- Message.go `body.readLocked`: EOF is sticky; an EOF from the limited
reader while it still owes bytes becomes `io.ErrUnexpectedEOF`; a read that
exhausts the declared length returns its data together with `io.EOF`. -/
def readLocked (st : BodyState) (p : Nat) : Bytes × Option BodyErr × BodyState :=
  if st.sawEOF then ([], some .eofE, st)
  else
    match lrRead st.srcN st.srcData p with
    | (bs, isEof, n', d') =>
      if isEof then
        (bs, some (if 0 < n' then .unexpectedEofE else .eofE),
          { st with sawEOF := true, srcN := n', srcData := d' })
      else if bs ≠ [] ∧ n' = 0 then
        (bs, some .eofE, { st with sawEOF := true, srcN := n', srcData := d' })
      else
        (bs, none, { st with srcN := n', srcData := d' })

/-- Message.go `body.Read`: a closed body always fails with
ErrBodyReadAfterClose, otherwise delegate to readLocked. -/
def bodyRead (st : BodyState) (p : Nat) : Bytes × Option BodyErr × BodyState :=
  if st.closed then ([], some .bodyReadAfterClose, st) else readLocked st p

/-- Drain loop over `readLocked` (the `io.Copy(ioutil.Discard, bodyLocked)`
of `body.Close`): read until an error, accumulating the data. -/
def drainLocked : Nat → BodyState → Nat → Bytes × Option BodyErr × BodyState
| 0, st, _ => ([], none, st)
| fuel + 1, st, p =>
  match readLocked st p with
  | (bs, none, st') =>
    match drainLocked fuel st' p with
    | (acc, e, st'') => (bs ++ acc, e, st'')
  | (bs, some e, st') => (bs, some e, st')

/-- Message.go `body.Close` with `doEarlyClose = false` (never set in this
repository): a closed body reports success immediately; otherwise the
remaining declared bytes are drained (io.Copy, which converts a final io.EOF
into success) and the body is marked closed. -/
def bodyClose (st : BodyState) : BodyState × Option BodyErr :=
  if st.closed then (st, none)
  else if st.sawEOF then ({ st with closed := true }, none)
  else
    match drainLocked (st.srcData.length + 2) st (st.srcN + st.srcData.length + 1) with
    | (_, e, st') =>
      ({ st' with closed := true }, if e = some .eofE then none else e)

/-- `Read` on a parsed message body: the eofReader always reports io.EOF and
reads no data; a `body` value steps its state machine. -/
def bodyValRead : BodyVal → Nat → Bytes × Option BodyErr × BodyVal
| .eofR, _ => ([], some .eofE, .eofR)
| .bodyR st, p =>
  match bodyRead st p with
  | (bs, e, st') => (bs, e, .bodyR st')

/-- `Close` on a parsed message body: the eofReader Close is a no-op
(`ioutil.NopCloser`); a `body` value drains and marks itself closed. -/
def bodyValClose : BodyVal → BodyVal × Option BodyErr
| .eofR => (.eofR, none)
| .bodyR st =>
  match bodyClose st with
  | (st', e) => (.bodyR st', e)

/-- Repeatedly `Read` a parsed message body with a fixed chunk size until a
read reports an error, accumulating the data (a fuel-bounded loop). -/
def drainReads : Nat → BodyVal → Nat → Bytes × Option BodyErr
| 0, _, _ => ([], none)
| fuel + 1, b, p =>
  match bodyValRead b p with
  | (bs, none, b') =>
    match drainReads fuel b' p with
    | (acc, e) => (bs ++ acc, e)
  | (bs, some e, _) => (bs, some e)

/-- Parse errors of the codec. -/
inductive ParseErr where
| unexpectedEOF
| malformedStartLine
| malformedVersion
| malformedStatusCode
| malformedHeader
| multipleContentLength
| badContentLength
deriving DecidableEq

/-- The "Content-Length" canonical header key. -/
def clKey : Bytes := [67, 111, 110, 116, 101, 110, 116, 45, 76, 101, 110, 103, 116, 104]

/-- Message.go ReadMessage line 105-109: a positive declared length binds the
body to a limited reader over the remaining stream, otherwise the shared
eofReader is used. -/
def mkBody (n : Nat) (rest : Bytes) : BodyVal :=
  if 0 < n then .bodyR ⟨n, rest, false, false⟩ else .eofR

/-- The Content-Length / body logic of Message.go ReadMessage (lines 82-111),
taking the already-parsed header section and the remaining stream: more than
one Content-Length value is a hard failure; a single non-blank value must
parse as a non-negative 32-bit integer; a missing or blank value means length
0 and the stale header field is deleted.  Returns the (possibly updated)
header, the content length and the bound body. -/
def readMessageCL (h : Header) (rest : Bytes) : Except ParseErr (Header × Nat × BodyVal) :=
  let contentLens := hGet h clKey
  if 1 < contentLens.length then .error .multipleContentLength
  else
    let cl := match contentLens with
      | [v] => trimSpace v
      | _ => []
    if cl ≠ [] then
      match parseContentLength cl with
      | none => .error .badContentLength
      | some n =>
        if n < 0 then .error .badContentLength
        else .ok (h, n.toNat, mkBody n.toNat rest)
    else .ok (hDel h clKey, 0, .eofR)

/-- Message.go ReadMessage: parse the MIME header section, then resolve
Content-Length and bind the body. -/
def ReadMessage (bs : Bytes) : Except ParseErr (Header × Nat × BodyVal) :=
  match readMIMEHeader bs with
  | none => .error .malformedHeader
  | some (h, rest) => readMessageCL h rest

/-- The generic message envelope (struct `message` of Message.go).  The
content length is kept as a Nat: every parse path checks non-negativity
before storing it. -/
structure GoMessage where
  sipVersion : Bytes
  header : Header
  contentLength : Nat
  body : BodyVal
deriving DecidableEq

/-- Struct `request` of part_003: the envelope plus method and request URI. -/
structure GoRequest where
  method : Bytes
  requestURI : Bytes
  msg : GoMessage
deriving DecidableEq

/-- Struct `response` of part_005: the envelope plus status code and reason
phrase. -/
structure GoResponse where
  statusCode : Int
  reasonPhrase : Bytes
  msg : GoMessage
deriving DecidableEq

/-- part_003 ReadRequest: read the request line, split it into three tokens
(failure: malformed SIP request), validate the version token with
ParseSIPVersion (failure: malformed SIP version), then run the generic
message parse.  part_003 contains three iterations of this reader; the
deduplicated behaviour composes the shared start-line handling with
Message.go ReadMessage. -/
def ReadRequest (bs : Bytes) : Except ParseErr GoRequest :=
  match readLine bs with
  | none => .error .unexpectedEOF
  | some (line, rest) =>
    match parseRequestLine line with
    | none => .error .malformedStartLine
    | some (m, u, v) =>
      match ParseSIPVersion v with
      | none => .error .malformedVersion
      | some _ =>
        match ReadMessage rest with
        | .error e => .error e
        | .ok (h, n, b) => .ok ⟨m, u, ⟨v, h, n, b⟩⟩

/-- part_005 ReadResponse: read the status line, SplitN on spaces into at
most three fields (fewer than two: malformed SIP response), the optional
third field is the reason phrase, the second must parse as an integer status
code, the first must pass ParseSIPVersion; then the generic message parse. -/
def ReadResponse (bs : Bytes) : Except ParseErr GoResponse :=
  match readLine bs with
  | none => .error .unexpectedEOF
  | some (line, rest) =>
    let f := splitN3 line
    if f.length < 2 then .error .malformedStartLine
    else
      let reason := f.getD 2 []
      match goAtoi (f.getD 1 []) with
      | none => .error .malformedStatusCode
      | some code =>
        match ParseSIPVersion (f.getD 0 []) with
        | none => .error .malformedVersion
        | some _ =>
          match ReadMessage rest with
          | .error e => .error e
          | .ok (h, n, b) => .ok ⟨code, reason, ⟨f.getD 0 [], h, n, b⟩⟩

/-- Decimal digit expansion, auxiliary (fuel ≥ number of digits). -/
def natToDecAux : Nat → Nat → Bytes
| 0, _ => []
| fuel + 1, n => if n < 10 then [48 + n] else natToDecAux fuel (n / 10) ++ [48 + n % 10]

/-- Decimal byte representation of a natural number. -/
def natToDec (n : Nat) : Bytes := natToDecAux (n + 1) n

/-- Decimal byte representation of an integer (Go `%d`). -/
def intToDec (c : Int) : Bytes := if c < 0 then 45 :: natToDec c.natAbs else natToDec c.natAbs

/-- The bytes a serializer obtains by copying the body to the output:
the eofReader contributes nothing; a fresh limited-reader body contributes
exactly its declared byte count, failing (`none`, the io.Copy error) if the
underlying stream is short, already closed, or already consumed past EOF
with bytes still owed.  Modelled from the spec: the body-copy half of
`message.write`, which is not under src/. -/
def bodyContents : BodyVal → Option Bytes
| .eofR => some []
| .bodyR st =>
  if st.closed then none
  else if st.sawEOF then some []
  else if st.srcData.length < st.srcN then none
  else some (st.srcData.take st.srcN)

/-- Serialize the lines of one header entry: one `Key: value CRLF` line per
value, in stored order. -/
def serVals (k : Bytes) : List Bytes → Bytes
| [] => []
| v :: t => k ++ 58 :: 32 :: (v ++ 13 :: 10 :: serVals k t)

/-- Serialize a header map in insertion order. -/
def serHeaders : Header → Bytes
| [] => []
| (k, vs) :: t => serVals k vs ++ serHeaders t

/-- Serialize the envelope after the start line.  Modelled from the spec
(section 4.1 Serialization): all headers except any pre-existing
Content-Length field, then a Content-Length header computed from the body's
actual byte count, then a blank line, then exactly those body bytes.  The
`message.write` helper this models is not under src/. -/
def messageWrite (m : GoMessage) : Option Bytes :=
  (bodyContents m.body).map (fun bb =>
    serHeaders (hDel m.header clKey) ++ (serVals clKey [natToDec bb.length] ++ 13 :: 10 :: bb))

/-- part_003 request.Write: the start line `METHOD SP URI SP SIP/2.0 CRLF`
(the version literal is always written), then the envelope. -/
def requestWrite (r : GoRequest) : Option Bytes :=
  (messageWrite r.msg).map (fun tail =>
    r.method ++ 32 :: (r.requestURI ++ 32 :: (sipLit ++ 13 :: 10 :: tail)))

/-- part_005 response.Write: the start line
`SIP/2.0 SP status-code SP reason CRLF`, then the envelope. -/
def responseWrite (r : GoResponse) : Option Bytes :=
  (messageWrite r.msg).map (fun tail =>
    sipLit ++ 32 :: (intToDec r.statusCode ++ 32 :: (r.reasonPhrase ++ 13 :: 10 :: tail)))

/-- part_003 NewRequest with a bytes.Buffer body: version literal, empty
header, content length set to the buffer length. -/
def NewRequest (method requestURI : Bytes) (body : Bytes) : GoRequest :=
  ⟨method, requestURI, ⟨sipLit, [], body.length, .bodyR ⟨body.length, body, false, false⟩⟩⟩

/-- Transaction.go TransactionState (the iota enumeration). -/
inductive TransactionState where
| CALLING
| TRYING
| PROCEEDING
| COMPLETED
| CONFIRMED
| TERMINATED
deriving DecidableEq

/-- The state-bearing fields of struct `transaction` of Transaction.go; the
`quit` channel is modelled by its closed flag (the only operation ever
applied to it is `close`). -/
structure GoTransaction where
  transactionState : TransactionState
  retransmitTimer : Nat
  quitClosed : Bool
deriving DecidableEq

/-- Transaction.go GetState: return the state field. -/
def GetState (t : GoTransaction) : TransactionState := t.transactionState

/-- Transaction.go Close: `close(this.quit)`.  Go `close` on an
already-closed channel panics, modelled as `none`. -/
def transactionClose (t : GoTransaction) : Option GoTransaction :=
  if t.quitClosed then none else some { t with quitClosed := true }

/-- ClientTransaction.go newClientTransaction: all state fields are Go zero
values (state 0 = CALLING, timer 0) and the quit channel is fresh. -/
def newClientTransaction : GoTransaction := ⟨.CALLING, 0, false⟩

/-- A registry mutation observed by the provider control loop
(TimeoutEvent.go Run, the join/leave select cases).  Transactions are
identified by an id standing for the map key. -/
inductive RegEvent where
| join (t : Nat)
| leave (t : Nat)

/-- One control-loop iteration on the transaction registry:
`this.transactions[s] = s` (key-set insertion; insertion order kept to model
the map contents deterministically) or `delete(this.transactions, s)`. -/
def applyRegEvent (reg : List Nat) : RegEvent → List Nat
| .join t => if t ∈ reg then reg else reg ++ [t]
| .leave t => reg.erase t

/-- The control loop processing a sequence of registry events one at a time
in observation order. -/
def runRegEvents (reg : List Nat) (evs : List RegEvent) : List Nat :=
  evs.foldl applyRegEvent reg

/-- Shutdown-relevant provider state (TimeoutEvent.go provider): the
transaction registry (map keys), the waitGroup counter (number of live
acceptor/connection tasks), whether `close(this.quit)` has happened, whether
the Close loop over registered transactions has run, and whether Stop has
returned. -/
structure ProvState where
  transactions : List Nat
  tasks : Nat
  quitClosed : Bool
  txAllClosed : Bool
  stopReturned : Bool
deriving DecidableEq

/-- Interleaved steps of the provider shutdown (TimeoutEvent.go Stop and the
spawned tasks): a live task may spawn another task (ServeAccept spawning a
connection task, waitGroup.Add before go), a live task may exit
(waitGroup.Done), Stop may run its signalling phase (close(this.quit) plus
Close on every registered transaction), and Stop returns from
waitGroup.Wait only once the counter is zero.  No step touches the
transactions map: neither Run (already returned or returning) nor Stop
deletes registry entries. -/
inductive ProvStep : ProvState → ProvState → Prop
| taskSpawn (s : ProvState) (k : Nat) :
    s.tasks = k + 1 → ProvStep s { s with tasks := k + 2 }
| taskExit (s : ProvState) (k : Nat) :
    s.tasks = k + 1 → ProvStep s { s with tasks := k }
| stopSignal (s : ProvState) :
    s.quitClosed = false → ProvStep s { s with quitClosed := true, txAllClosed := true }
| stopWait (s : ProvState) :
    s.quitClosed = true → s.txAllClosed = true → s.tasks = 0 →
    ProvStep s { s with stopReturned := true }

/-- Reachability through provider shutdown steps. -/
def ProvReach : ProvState → ProvState → Prop := Relation.ReflTransGen ProvStep

/-! ### Lemmas on line reading and token splitting -/

theorem splitAtLF_append (l r : Bytes) (h : (10 : Nat) ∉ l) :
    splitAtLF (l ++ 10 :: r) = some (l, r) := by
  induction l with
  | nil => simp [splitAtLF]
  | cons c t ih =>
    have hc : c ≠ 10 := fun hc => h (hc ▸ List.mem_cons_self c t)
    have ht : (10 : Nat) ∉ t := fun hm => h (List.mem_cons_of_mem c hm)
    simp [splitAtLF, hc, ih ht]

theorem splitAtLF_no_lf {bs l r : Bytes} (h : splitAtLF bs = some (l, r)) : (10 : Nat) ∉ l := by
  induction bs generalizing l r with
  | nil => simp [splitAtLF] at h
  | cons c t ih =>
    by_cases hc : c = 10
    · subst hc
      unfold splitAtLF at h
      rw [if_pos rfl] at h
      injection h with h'
      cases h'
      simp
    · simp only [splitAtLF, hc, if_false, Option.map_eq_some'] at h
      obtain ⟨p, hp, hpe⟩ := h
      cases p with
      | mk p1 p2 =>
        cases hpe
        intro hm
        rcases List.mem_cons.mp hm with h1 | h2
        · exact hc h1.symm
        · exact ih hp h2

theorem splitAtLF_rest_lt {bs l r : Bytes} (h : splitAtLF bs = some (l, r)) :
    r.length < bs.length := by
  induction bs generalizing l r with
  | nil => simp [splitAtLF] at h
  | cons c t ih =>
    by_cases hc : c = 10
    · subst hc
      unfold splitAtLF at h
      rw [if_pos rfl] at h
      injection h with h'
      cases h'
      simp
    · simp only [splitAtLF, hc, if_false, Option.map_eq_some'] at h
      obtain ⟨p, hp, hpe⟩ := h
      cases p with
      | mk p1 p2 =>
        cases hpe
        exact Nat.lt_succ_of_lt (ih hp)

theorem stripCR_append (l : Bytes) : stripCR (l ++ [13]) = l := by
  simp [stripCR]

theorem readLine_append (l r : Bytes) (h : (10 : Nat) ∉ l) :
    readLine (l ++ 13 :: 10 :: r) = some (l, r) := by
  have h13 : (10 : Nat) ∉ l ++ [13] := by
    intro hm
    rcases List.mem_append.mp hm with h1 | h2
    · exact h h1
    · simp at h2
  have he : l ++ 13 :: 10 :: r = (l ++ [13]) ++ 10 :: r := by simp
  rw [readLine, he, splitAtLF_append _ _ h13]
  simp [stripCR_append]

theorem stripCR_subset {a : Nat} {l : Bytes} (h : a ∈ stripCR l) : a ∈ l := by
  unfold stripCR at h
  split at h
  · exact List.dropLast_subset _ h
  · exact h

theorem readLine_no_lf {bs line rest : Bytes} (h : readLine bs = some (line, rest)) :
    (10 : Nat) ∉ line := by
  unfold readLine at h
  rw [Option.map_eq_some'] at h
  obtain ⟨p, hp, hpe⟩ := h
  cases p with
  | mk p1 p2 =>
    cases hpe
    intro hm
    exact splitAtLF_no_lf hp (stripCR_subset hm)

theorem readLine_rest_lt {bs line rest : Bytes} (h : readLine bs = some (line, rest)) :
    rest.length < bs.length := by
  unfold readLine at h
  rw [Option.map_eq_some'] at h
  obtain ⟨p, hp, hpe⟩ := h
  cases p with
  | mk p1 p2 =>
    cases hpe
    exact splitAtLF_rest_lt hp

theorem idxOf_append (a : Bytes) (b : Nat) (h : b ∉ a) (r : Bytes) :
    idxOf b (a ++ b :: r) = some a.length := by
  induction a with
  | nil => simp [idxOf]
  | cons c t ih =>
    have hc : c ≠ b := fun hc => h (hc ▸ List.mem_cons_self c t)
    have ht : b ∉ t := fun hm => h (List.mem_cons_of_mem c hm)
    simp [idxOf, hc, ih ht]

theorem idxOf_eq_none {b : Nat} {l : Bytes} (h : b ∉ l) : idxOf b l = none := by
  induction l with
  | nil => rfl
  | cons c t ih =>
    have hc : c ≠ b := fun hc => h (hc ▸ List.mem_cons_self c t)
    have ht : b ∉ t := fun hm => h (List.mem_cons_of_mem c hm)
    simp [idxOf, hc, ih ht]

theorem idxOf_some {b : Nat} : ∀ {l : Bytes} {i : Nat}, idxOf b l = some i →
    l = l.take i ++ b :: l.drop (i + 1) ∧ b ∉ l.take i := by
  intro l
  induction l with
  | nil => intro i h; simp [idxOf] at h
  | cons c t ih =>
    intro i h
    by_cases hc : c = b
    · unfold idxOf at h
      rw [if_pos hc] at h
      injection h with h'
      subst hc
      cases h'
      simp
    · simp only [idxOf, hc, if_false, Option.map_eq_some'] at h
      obtain ⟨j, hj, hje⟩ := h
      obtain ⟨hdec, hmem⟩ := ih hj
      subst hje
      constructor
      · simpa [List.take, List.drop] using congrArg (c :: ·) hdec
      · intro hm
        rcases List.mem_cons.mp hm with h1 | h2
        · exact hc h1.symm
        · exact hmem h2

theorem take_append_cons (a : Bytes) (b : Nat) (r : Bytes) : (a ++ b :: r).take a.length = a := by
  simp [List.take_left']

theorem drop_append_cons (a : Bytes) (b : Nat) (r : Bytes) :
    (a ++ b :: r).drop (a.length + 1) = r := by
  have : a ++ b :: r = (a ++ [b]) ++ r := by simp
  have hl : a.length + 1 = (a ++ [b]).length := by simp
  rw [this, hl, List.drop_left]

theorem parseRequestLine_append (m u v : Bytes) (hm : (32 : Nat) ∉ m) (hu : (32 : Nat) ∉ u) :
    parseRequestLine (m ++ 32 :: (u ++ 32 :: v)) = some (m, u, v) := by
  unfold parseRequestLine
  simp only [idxOf_append m 32 hm, drop_append_cons, idxOf_append u 32 hu, take_append_cons]

theorem splitN3_append (a b c : Bytes) (ha : (32 : Nat) ∉ a) (hb : (32 : Nat) ∉ b) :
    splitN3 (a ++ 32 :: (b ++ 32 :: c)) = [a, b, c] := by
  unfold splitN3
  simp only [idxOf_append a 32 ha, drop_append_cons, idxOf_append b 32 hb, take_append_cons]

theorem parseRequestLine_none {line : Bytes} (h : line.count 32 < 2) :
    parseRequestLine line = none := by
  unfold parseRequestLine
  cases h1 : idxOf 32 line with
  | none => rfl
  | some s1 =>
    obtain ⟨hdec, hmem⟩ := idxOf_some h1
    have hcount : (line.take s1 ++ 32 :: line.drop (s1 + 1)).count 32 < 2 := hdec ▸ h
    rw [List.count_append, List.count_cons_self] at hcount
    have h0 : (line.drop (s1 + 1)).count 32 = 0 := by omega
    simp only [idxOf_eq_none (List.count_eq_zero.mp h0)]

theorem splitN3_single {line : Bytes} (h : line.count 32 = 0) : splitN3 line = [line] := by
  unfold splitN3
  simp only [idxOf_eq_none (List.count_eq_zero.mp h)]

/-! ### Lemmas on header-key canonicalisation -/

theorem byteToUpper_valid {b : Nat} (h : validHeaderFieldByte b = true) :
    validHeaderFieldByte (byteToUpper b) = true := by
  simp only [validHeaderFieldByte, byteToUpper, Bool.or_eq_true, Bool.and_eq_true,
    decide_eq_true_eq] at *
  split_ifs with hb
  · omega
  · exact h

theorem byteToLower_valid {b : Nat} (h : validHeaderFieldByte b = true) :
    validHeaderFieldByte (byteToLower b) = true := by
  simp only [validHeaderFieldByte, byteToLower, Bool.or_eq_true, Bool.and_eq_true,
    decide_eq_true_eq] at *
  split_ifs with hb
  · omega
  · exact h

theorem byteToUpper_byteToUpper (b : Nat) : byteToUpper (byteToUpper b) = byteToUpper b := by
  simp only [byteToUpper]
  split_ifs <;> omega

theorem byteToLower_byteToLower (b : Nat) : byteToLower (byteToLower b) = byteToLower b := by
  simp only [byteToLower]
  split_ifs <;> omega

theorem byteToUpper_eq45 (b : Nat) : decide (byteToUpper b = 45) = decide (b = 45) := by
  rw [decide_eq_decide]
  unfold byteToUpper
  split_ifs <;> omega

theorem byteToLower_eq45 (b : Nat) : decide (byteToLower b = 45) = decide (b = 45) := by
  rw [decide_eq_decide]
  unfold byteToLower
  split_ifs <;> omega

theorem eq_byteToUpper_low {a b : Nat} (hb : b < 65) : (b = byteToUpper a) ↔ b = a := by
  unfold byteToUpper
  split_ifs <;> omega

theorem eq_byteToLower_low {a b : Nat} (hb : b < 65) : (b = byteToLower a) ↔ b = a := by
  unfold byteToLower
  split_ifs <;> omega

theorem canonAux_all_valid : ∀ (up : Bool) (l : Bytes), l.all validHeaderFieldByte = true →
    (canonAux up l).all validHeaderFieldByte = true := by
  intro up l
  induction l generalizing up with
  | nil => intro _; cases up <;> rfl
  | cons c t ih =>
    intro h
    rw [List.all_cons, Bool.and_eq_true] at h
    cases up with
    | true =>
      rw [canonAux, List.all_cons, Bool.and_eq_true]
      exact ⟨byteToUpper_valid h.1, ih _ h.2⟩
    | false =>
      rw [canonAux, List.all_cons, Bool.and_eq_true]
      exact ⟨byteToLower_valid h.1, ih _ h.2⟩

theorem canonAux_canonAux : ∀ (up : Bool) (l : Bytes),
    canonAux up (canonAux up l) = canonAux up l := by
  intro up l
  induction l generalizing up with
  | nil => cases up <;> rfl
  | cons c t ih =>
    cases up with
    | true =>
      rw [canonAux, canonAux, byteToUpper_byteToUpper, byteToUpper_eq45, ih]
    | false =>
      rw [canonAux, canonAux, byteToLower_byteToLower, byteToLower_eq45, ih]

theorem canon_idem (k : Bytes) :
    canonicalMIMEHeaderKey (canonicalMIMEHeaderKey k) = canonicalMIMEHeaderKey k := by
  unfold canonicalMIMEHeaderKey
  by_cases hv : k.all validHeaderFieldByte = true
  · rw [if_pos hv, if_pos (canonAux_all_valid true k hv), canonAux_canonAux]
  · rw [if_neg hv, if_neg hv]

theorem canonAux_mem_low {b : Nat} (hb : b < 65) : ∀ (up : Bool) (l : Bytes),
    b ∈ canonAux up l ↔ b ∈ l := by
  intro up l
  induction l generalizing up with
  | nil => cases up <;> simp [canonAux]
  | cons c t ih =>
    cases up with
    | true =>
      rw [canonAux, List.mem_cons, List.mem_cons, ih, eq_byteToUpper_low hb]
    | false =>
      rw [canonAux, List.mem_cons, List.mem_cons, ih, eq_byteToLower_low hb]

theorem canonical_mem_low {b : Nat} (hb : b < 65) (k : Bytes) :
    b ∈ canonicalMIMEHeaderKey k ↔ b ∈ k := by
  unfold canonicalMIMEHeaderKey
  split_ifs
  · exact canonAux_mem_low hb true k
  · exact Iff.rfl

/-! ### Lemmas on whitespace handling -/

theorem skipLeadingWS_idem (l : Bytes) : skipLeadingWS (skipLeadingWS l) = skipLeadingWS l := by
  induction l with
  | nil => rfl
  | cons c t ih =>
    by_cases hc : c = 32 ∨ c = 9
    · rw [skipLeadingWS, if_pos hc, ih]
    · rw [skipLeadingWS, if_neg hc, skipLeadingWS, if_neg hc]

theorem skipLeadingWS_subset {a : Nat} : ∀ {l : Bytes}, a ∈ skipLeadingWS l → a ∈ l := by
  intro l
  induction l with
  | nil => intro h; exact h
  | cons c t ih =>
    intro h
    rw [skipLeadingWS] at h
    split_ifs at h
    · exact List.mem_cons_of_mem c (ih h)
    · exact h

theorem skipLeadingWS_cons32 (v : Bytes) : skipLeadingWS (32 :: v) = skipLeadingWS v := by
  rw [skipLeadingWS]
  simp

theorem skipLeadingWS_eq_self {l : Bytes} (h : ∀ c ∈ l, ¬(c = 32 ∨ c = 9)) :
    skipLeadingWS l = l := by
  cases l with
  | nil => rfl
  | cons c t => rw [skipLeadingWS, if_neg (h c (List.mem_cons_self c t))]

theorem trimLeftWS_eq_self {l : Bytes} (h : ∀ c ∈ l, isWSByte c = false) :
    trimLeftWS l = l := by
  cases l with
  | nil => rfl
  | cons c t =>
    rw [trimLeftWS, if_neg]
    rw [h c (List.mem_cons_self c t)]
    simp

theorem trimSpace_eq_self {l : Bytes} (h : ∀ c ∈ l, isWSByte c = false) :
    trimSpace l = l := by
  unfold trimSpace
  rw [trimLeftWS_eq_self h, trimLeftWS_eq_self (fun c hc => h c (List.mem_reverse.mp hc)),
    List.reverse_reverse]

/-! ### Lemmas on decimal printing and parsing -/

theorem natToDecAux_digits : ∀ (fuel n : Nat), ∀ c ∈ natToDecAux fuel n, 48 ≤ c ∧ c ≤ 57 := by
  intro fuel
  induction fuel with
  | zero => intro n c hc; simp [natToDecAux] at hc
  | succ f ih =>
    intro n c hc
    rw [natToDecAux] at hc
    split_ifs at hc with hn
    · rw [List.mem_singleton] at hc
      omega
    · rcases List.mem_append.mp hc with h1 | h2
      · exact ih _ c h1
      · rw [List.mem_singleton] at h2
        have := Nat.mod_lt n (show 0 < 10 by omega)
        omega

theorem natToDec_digits (n : Nat) : ∀ c ∈ natToDec n, 48 ≤ c ∧ c ≤ 57 :=
  natToDecAux_digits (n + 1) n

theorem natToDec_ne_nil (n : Nat) : natToDec n ≠ [] := by
  unfold natToDec natToDecAux
  split_ifs <;> simp

theorem digitsToNatAux_append (acc : Nat) (xs ys : Bytes) :
    digitsToNatAux acc (xs ++ ys) = (digitsToNatAux acc xs).bind (fun a => digitsToNatAux a ys) := by
  induction xs generalizing acc with
  | nil => rfl
  | cons c t ih =>
    rw [List.cons_append, digitsToNatAux, digitsToNatAux]
    split_ifs
    · exact ih _
    · rfl

theorem natToDecAux_correct : ∀ (fuel n : Nat), n < 10 ^ fuel → ∀ acc,
    digitsToNatAux acc (natToDecAux fuel n) =
      some (acc * 10 ^ (natToDecAux fuel n).length + n) := by
  intro fuel
  induction fuel with
  | zero =>
    intro n hn acc
    interval_cases n
    simp [natToDecAux, digitsToNatAux]
  | succ f ih =>
    intro n hn acc
    rw [natToDecAux]
    split_ifs with h10
    · rw [digitsToNatAux, if_pos (by omega), digitsToNatAux]
      simp only [List.length_singleton, pow_one]
      congr 1
      omega
    · have hdiv : n / 10 < 10 ^ f := by
        rw [pow_succ] at hn
        omega
      rw [digitsToNatAux_append, ih (n / 10) hdiv acc, Option.some_bind, digitsToNatAux,
        if_pos (by have := Nat.mod_lt n (show 0 < 10 by omega); omega), digitsToNatAux]
      simp only [List.length_append, List.length_singleton]
      congr 1
      have hsub : 48 + n % 10 - 48 = n % 10 := by omega
      have hdm : n / 10 * 10 + n % 10 = n := by omega
      calc (acc * 10 ^ (natToDecAux f (n / 10)).length + n / 10) * 10 + (48 + n % 10 - 48)
          = acc * 10 ^ (natToDecAux f (n / 10)).length * 10 + (n / 10 * 10 + n % 10) := by
            rw [hsub]; ring
        _ = acc * 10 ^ (natToDecAux f (n / 10)).length * 10 + n := by rw [hdm]
        _ = acc * 10 ^ ((natToDecAux f (n / 10)).length + 1) + n := by rw [pow_succ]; ring

theorem digitsToNat_natToDec (n : Nat) : digitsToNat (natToDec n) = some n := by
  rw [digitsToNat, if_neg (natToDec_ne_nil n), natToDec,
    natToDecAux_correct (n + 1) n (Nat.lt_pow_self (by omega) n |>.trans
      (Nat.pow_lt_pow_succ (by omega))) 0]
  simp

theorem goAtoi_natToDec {n : Nat} (h : n ≤ 2 ^ 63 - 1) : goAtoi (natToDec n) = some (n : Int) := by
  rcases hd : natToDec n with _ | ⟨b, t⟩
  · exact absurd hd (natToDec_ne_nil n)
  · have hb := natToDec_digits n b (hd ▸ List.mem_cons_self b t)
    rw [goAtoi, if_neg (by omega), if_neg (by omega), ← hd, digitsToNat_natToDec,
      Option.some_bind, if_pos h]

theorem goAtoi_intToDec {c : Int} (h1 : -(2 ^ 63) ≤ c) (h2 : c ≤ 2 ^ 63 - 1) :
    goAtoi (intToDec c) = some c := by
  unfold intToDec
  split_ifs with hc
  · rcases hd : natToDec c.natAbs with _ | ⟨b, t⟩
    · exact absurd hd (natToDec_ne_nil _)
    · rw [goAtoi, if_neg (by omega), if_pos rfl, ← hd, digitsToNat_natToDec, Option.some_bind,
        if_pos (by omega)]
      congr 1
      omega
  · rw [goAtoi_natToDec (by omega)]
    congr 1
    omega

theorem goAtoi_bound {bs : Bytes} {c : Int} (h : goAtoi bs = some c) :
    -(2 ^ 63) ≤ c ∧ c ≤ 2 ^ 63 - 1 := by
  rcases bs with _ | ⟨b, t⟩
  · rw [goAtoi] at h
    exact absurd h (by simp)
  · rw [goAtoi] at h
    split_ifs at h <;>
    · rw [Option.bind_eq_some] at h
      obtain ⟨n, _, hn⟩ := h
      split_ifs at hn with hb
      injection hn with hn'
      omega

theorem goParseInt32_natToDec {n : Nat} (h : n ≤ 2 ^ 31 - 1) :
    goParseInt32 (natToDec n) = some (n : Int) := by
  rcases hd : natToDec n with _ | ⟨b, t⟩
  · exact absurd hd (natToDec_ne_nil n)
  · have hb := natToDec_digits n b (hd ▸ List.mem_cons_self b t)
    rw [goParseInt32, if_neg (by omega), if_neg (by omega), ← hd, digitsToNat_natToDec,
      Option.some_bind, if_pos h]

theorem natToDec_not_ws (n : Nat) : ∀ c ∈ natToDec n, isWSByte c = false := by
  intro c hc
  have := natToDec_digits n c hc
  simp only [isWSByte, Bool.or_eq_false_iff, decide_eq_false_iff_not]
  omega

theorem parseContentLength_natToDec {L : Nat} (h : L ≤ 2 ^ 31 - 1) :
    parseContentLength (natToDec L) = some (L : Int) := by
  unfold parseContentLength
  rw [trimSpace_eq_self (natToDec_not_ws L)]
  simp only [if_neg (natToDec_ne_nil L), goParseInt32_natToDec h]
  rw [if_neg (by omega)]

theorem goParseInt32_bound {bs : Bytes} {c : Int} (h : goParseInt32 bs = some c) :
    c ≤ 2 ^ 31 - 1 ∨ c ≤ 0 := by
  rcases bs with _ | ⟨b, t⟩
  · rw [goParseInt32] at h
    exact absurd h (by simp)
  · rw [goParseInt32] at h
    split_ifs at h <;>
    · rw [Option.bind_eq_some] at h
      obtain ⟨k, _, hk⟩ := h
      split_ifs at hk with hb
      injection hk with hk'
      omega

theorem parseContentLength_bound {cl : Bytes} {n : Int} (h : parseContentLength cl = some n)
    (hn : ¬n < 0) : n ≤ 2 ^ 31 - 1 := by
  unfold parseContentLength at h
  simp only [] at h
  split_ifs at h with ht
  · injection h with h'
    omega
  · rcases hp : goParseInt32 (trimSpace cl) with _ | m
    · rw [hp] at h; exact absurd h (by simp)
    · rw [hp] at h
      simp only [] at h
      split_ifs at h with hm
      injection h with h'
      subst h'
      rcases goParseInt32_bound hp with hb | hb <;> omega

/-! ### Header map algebra -/

theorem hGet_hDel (h : Header) (k : Bytes) : hGet (hDel h k) k = [] := by
  induction h with
  | nil => rfl
  | cons e t ih =>
    obtain ⟨k1, vs1⟩ := e
    rw [hDel]
    split_ifs with he
    · exact ih
    · rw [hGet, if_neg he]
      exact ih

theorem hDel_entry_mem {e : Bytes × List Bytes} {h : Header} {k : Bytes}
    (hm : e ∈ hDel h k) : e ∈ h := by
  induction h with
  | nil => exact hm
  | cons e1 t ih =>
    obtain ⟨k1, vs1⟩ := e1
    rw [hDel] at hm
    split_ifs at hm with he
    · exact List.mem_cons_of_mem _ (ih hm)
    · rcases List.mem_cons.mp hm with h1 | h2
      · exact h1 ▸ List.mem_cons_self _ _
      · exact List.mem_cons_of_mem _ (ih h2)

theorem hDel_key_ne {e : Bytes × List Bytes} {h : Header} {k : Bytes}
    (hm : e ∈ hDel h k) : e.1 ≠ k := by
  induction h with
  | nil => exact absurd hm (List.not_mem_nil e)
  | cons e1 t ih =>
    obtain ⟨k1, vs1⟩ := e1
    rw [hDel] at hm
    split_ifs at hm with he
    · exact ih hm
    · rcases List.mem_cons.mp hm with h1 | h2
      · rw [h1]; exact he
      · exact ih h2

theorem hDel_sublist (h : Header) (k : Bytes) : (hDel h k).Sublist h := by
  induction h with
  | nil => exact List.Sublist.refl []
  | cons e t ih =>
    obtain ⟨k1, vs1⟩ := e
    rw [hDel]
    split_ifs with he
    · exact ih.cons _
    · exact ih.cons₂ _

theorem hDel_keys_nodup {h : Header} (hn : (h.map Prod.fst).Nodup) (k : Bytes) :
    ((hDel h k).map Prod.fst).Nodup :=
  hn.sublist ((hDel_sublist h k).map Prod.fst)

theorem hDel_append (a b : Header) (k : Bytes) : hDel (a ++ b) k = hDel a k ++ hDel b k := by
  induction a with
  | nil => rfl
  | cons e t ih =>
    obtain ⟨k1, vs1⟩ := e
    rw [List.cons_append, hDel, hDel]
    split_ifs with he
    · exact ih
    · rw [List.cons_append, ih]

theorem hDel_eq_self {h : Header} {k : Bytes} (hk : ∀ e ∈ h, e.1 ≠ k) : hDel h k = h := by
  induction h with
  | nil => rfl
  | cons e t ih =>
    obtain ⟨k1, vs1⟩ := e
    rw [hDel, if_neg (hk (k1, vs1) (List.mem_cons_self _ _)), ih]
    intro e he
    exact hk e (List.mem_cons_of_mem _ he)

theorem hDel_hDel (h : Header) (k : Bytes) : hDel (hDel h k) k = hDel h k :=
  hDel_eq_self (fun _ he => hDel_key_ne he)

theorem hGet_append_left_none {h1 : Header} (h2 : Header) {k : Bytes}
    (hk : ∀ e ∈ h1, e.1 ≠ k) : hGet (h1 ++ h2) k = hGet h2 k := by
  induction h1 with
  | nil => rfl
  | cons e t ih =>
    obtain ⟨k1, vs1⟩ := e
    rw [List.cons_append, hGet, if_neg (hk (k1, vs1) (List.mem_cons_self _ _))]
    exact ih (fun e he => hk e (List.mem_cons_of_mem _ he))

theorem hAdd_fresh {h : Header} {k : Bytes} (v : Bytes) (hk : ∀ e ∈ h, e.1 ≠ k) :
    hAdd h k v = h ++ [(k, [v])] := by
  induction h with
  | nil => rfl
  | cons e t ih =>
    obtain ⟨k1, vs1⟩ := e
    rw [hAdd, if_neg (hk (k1, vs1) (List.mem_cons_self _ _)), List.cons_append,
      ih (fun e he => hk e (List.mem_cons_of_mem _ he))]

theorem hAdd_found_last {h : Header} {k : Bytes} (acc : List Bytes) (v : Bytes)
    (hk : ∀ e ∈ h, e.1 ≠ k) : hAdd (h ++ [(k, acc)]) k v = h ++ [(k, acc ++ [v])] := by
  induction h with
  | nil => simp [hAdd]
  | cons e t ih =>
    obtain ⟨k1, vs1⟩ := e
    rw [List.cons_append, hAdd, if_neg (hk (k1, vs1) (List.mem_cons_self _ _)),
      List.cons_append, ih (fun e he => hk e (List.mem_cons_of_mem _ he))]

theorem hAdd_keys_subset {a : Bytes} : ∀ {h : Header} {k v : Bytes},
    a ∈ (hAdd h k v).map Prod.fst → a ∈ h.map Prod.fst ∨ a = k := by
  intro h
  induction h with
  | nil =>
    intro k v hm
    simp [hAdd] at hm
    exact Or.inr hm
  | cons e t ih =>
    intro k v hm
    obtain ⟨k1, vs1⟩ := e
    rw [hAdd] at hm
    split_ifs at hm with he
    · rw [List.map_cons] at hm
      rcases List.mem_cons.mp hm with h1 | h2
      · exact Or.inl (by simp [h1])
      · exact Or.inl (List.mem_cons_of_mem _ h2)
    · rw [List.map_cons] at hm
      rcases List.mem_cons.mp hm with h1 | h2
      · exact Or.inl (by simp [h1])
      · rcases ih h2 with h3 | h3
        · exact Or.inl (List.mem_cons_of_mem _ h3)
        · exact Or.inr h3

/-- Entry well-formedness established by the MIME header parser: the key is
canonical, contains neither a colon nor LF; the value list is non-empty and
each value is leading-whitespace-free and LF-free. -/
def HdrEntryWF (e : Bytes × List Bytes) : Prop :=
  canonicalMIMEHeaderKey e.1 = e.1 ∧ (58 : Nat) ∉ e.1 ∧ (10 : Nat) ∉ e.1 ∧ e.2 ≠ [] ∧
  ∀ v ∈ e.2, skipLeadingWS v = v ∧ (10 : Nat) ∉ v

/-- Header well-formedness: keys occur once each, every entry well-formed. -/
def HeaderWF (h : Header) : Prop :=
  (h.map Prod.fst).Nodup ∧ ∀ e ∈ h, HdrEntryWF e

theorem hAdd_WF {h : Header} {k v : Bytes} (hw : HeaderWF h)
    (hk : canonicalMIMEHeaderKey k = k) (h58 : (58 : Nat) ∉ k) (h10 : (10 : Nat) ∉ k)
    (hv : skipLeadingWS v = v) (hv10 : (10 : Nat) ∉ v) : HeaderWF (hAdd h k v) := by
  induction h with
  | nil =>
    refine ⟨by simp [hAdd], ?_⟩
    intro e he
    rw [hAdd, List.mem_singleton] at he
    subst he
    exact ⟨hk, h58, h10, by simp, by simp [hv, hv10]⟩
  | cons e1 t ih =>
    obtain ⟨k1, vs1⟩ := e1
    obtain ⟨hnd, hent⟩ := hw
    rw [List.map_cons, List.nodup_cons] at hnd
    rw [hAdd]
    split_ifs with he
    · refine ⟨by rw [List.map_cons]; exact List.nodup_cons.mpr hnd, ?_⟩
      intro e hme
      rcases List.mem_cons.mp hme with h1 | h2
      · subst h1
        obtain ⟨e1k, e158, e110, _, e1v⟩ := hent (k1, vs1) (List.mem_cons_self _ _)
        refine ⟨e1k, e158, e110, by simp, ?_⟩
        intro v2 hv2
        rcases List.mem_append.mp hv2 with hv3 | hv3
        · exact e1v v2 hv3
        · rw [List.mem_singleton] at hv3
          subst hv3
          exact ⟨hv, hv10⟩
      · exact hent e (List.mem_cons_of_mem _ h2)
    · have hwt : HeaderWF t := ⟨hnd.2, fun e hme => hent e (List.mem_cons_of_mem _ hme)⟩
      obtain ⟨ihnd, ihent⟩ := ih hwt
      refine ⟨?_, ?_⟩
      · rw [List.map_cons, List.nodup_cons]
        refine ⟨?_, ihnd⟩
        intro hmem
        rcases hAdd_keys_subset hmem with h1 | h1
        · exact hnd.1 h1
        · exact he h1
      · intro e hme
        rcases List.mem_cons.mp hme with h1 | h2
        · exact h1 ▸ hent (k1, vs1) (List.mem_cons_self _ _)
        · exact ihent e h2

theorem readMIMEHeaderAux_WF : ∀ (fuel : Nat) (h0 : Header) (bs : Bytes) (h : Header)
    (rest : Bytes), HeaderWF h0 → readMIMEHeaderAux fuel h0 bs = some (h, rest) →
    HeaderWF h := by
  intro fuel
  induction fuel with
  | zero => intro h0 bs h rest _ hp; exact absurd hp (by simp [readMIMEHeaderAux])
  | succ f ih =>
    intro h0 bs h rest hw hp
    rw [readMIMEHeaderAux] at hp
    rcases hrl : readLine bs with _ | ⟨line, rest0⟩
    · rw [hrl] at hp; exact absurd hp (by simp)
    · rw [hrl] at hp
      simp only [] at hp
      split_ifs at hp with hline
      · injection hp with hp'
        obtain ⟨h1, _⟩ := Prod.mk.injEq .. ▸ hp'
        exact h1 ▸ hw
      · rcases hix : idxOf 58 line with _ | i
        · rw [hix] at hp; exact absurd hp (by simp)
        · rw [hix] at hp
          refine ih _ _ _ _ (hAdd_WF hw (canon_idem _) ?_ ?_ (skipLeadingWS_idem _) ?_) hp
          · rw [canonical_mem_low (by omega)]
            exact (idxOf_some hix).2
          · rw [canonical_mem_low (by omega)]
            intro hmem
            exact readLine_no_lf hrl (List.take_subset i line hmem)
          · intro hmem
            exact readLine_no_lf hrl (List.drop_subset (i + 1) line (skipLeadingWS_subset hmem))

theorem readMIMEHeader_WF {bs : Bytes} {h : Header} {rest : Bytes}
    (hp : readMIMEHeader bs = some (h, rest)) : HeaderWF h :=
  readMIMEHeaderAux_WF _ [] bs h rest ⟨List.nodup_nil, by simp⟩ hp

/-! ### Parsing serialized headers back -/

/-- The individual `Key: value` lines of a serialized header section. -/
def serLinesOf : List (Bytes × Bytes) → Bytes
| [] => []
| (k, v) :: t => k ++ 58 :: 32 :: (v ++ 13 :: 10 :: serLinesOf t)

/-- The (key, value) line list of a header map, one line per stored value. -/
def linesOf (hs : Header) : List (Bytes × Bytes) :=
  hs.flatMap (fun e => e.2.map (fun v => (e.1, v)))

theorem serLinesOf_append (a b : List (Bytes × Bytes)) :
    serLinesOf (a ++ b) = serLinesOf a ++ serLinesOf b := by
  induction a with
  | nil => rfl
  | cons e t ih =>
    obtain ⟨k, v⟩ := e
    rw [List.cons_append, serLinesOf, serLinesOf, ih]
    simp [List.append_assoc]

theorem serVals_eq_serLinesOf (k : Bytes) (vs : List Bytes) :
    serVals k vs = serLinesOf (vs.map (fun v => (k, v))) := by
  induction vs with
  | nil => rfl
  | cons v t ih => rw [List.map_cons, serVals, serLinesOf, ih]

theorem serHeaders_eq_serLinesOf (hs : Header) : serHeaders hs = serLinesOf (linesOf hs) := by
  induction hs with
  | nil => rfl
  | cons e t ih =>
    obtain ⟨k, vs⟩ := e
    rw [serHeaders, linesOf, List.flatMap_cons, serLinesOf_append, serVals_eq_serLinesOf, ih,
      linesOf]

theorem serLinesOf_length_le (ls : List (Bytes × Bytes)) :
    ls.length ≤ (serLinesOf ls).length := by
  induction ls with
  | nil => simp [serLinesOf]
  | cons e t ih =>
    obtain ⟨k, v⟩ := e
    rw [serLinesOf]
    simp only [List.length_cons, List.length_append]
    omega

theorem readMIMEHeaderAux_serLines :
    ∀ (ls : List (Bytes × Bytes)) (fuel : Nat) (h0 : Header) (rest : Bytes),
    (∀ e ∈ ls, canonicalMIMEHeaderKey e.1 = e.1 ∧ (58 : Nat) ∉ e.1 ∧ (10 : Nat) ∉ e.1 ∧
      skipLeadingWS e.2 = e.2 ∧ (10 : Nat) ∉ e.2) →
    ls.length < fuel →
    readMIMEHeaderAux fuel h0 (serLinesOf ls ++ 13 :: 10 :: rest) =
      some (ls.foldl (fun h e => hAdd h e.1 e.2) h0, rest) := by
  intro ls
  induction ls with
  | nil =>
    intro fuel h0 rest _ hfuel
    rcases fuel with _ | f
    · omega
    · rw [readMIMEHeaderAux, serLinesOf, List.nil_append,
        show (13 : Nat) :: 10 :: rest = ([] : Bytes) ++ 13 :: 10 :: rest from rfl,
        readLine_append [] rest (by simp)]
      simp [List.foldl]
  | cons e t ih =>
    intro fuel h0 rest hgood hfuel
    obtain ⟨k, v⟩ := e
    obtain ⟨hk, h58, h10, hv, hv10⟩ := hgood (k, v) (List.mem_cons_self _ _)
    rcases fuel with _ | f
    · omega
    · have hline10 : (10 : Nat) ∉ k ++ 58 :: 32 :: v := by
        intro hm
        rcases List.mem_append.mp hm with h1 | h2
        · exact h10 h1
        · rcases List.mem_cons.mp h2 with h3 | h4
          · omega
          · rcases List.mem_cons.mp h4 with h5 | h6
            · omega
            · exact hv10 h6
      have hshape : serLinesOf ((k, v) :: t) ++ 13 :: 10 :: rest =
          (k ++ 58 :: 32 :: v) ++ 13 :: 10 :: (serLinesOf t ++ 13 :: 10 :: rest) := by
        rw [serLinesOf]
        simp [List.append_assoc]
      rw [readMIMEHeaderAux, hshape, readLine_append _ _ hline10]
      simp only []
      rw [if_neg (by simp), idxOf_append k 58 h58]
      simp only []
      rw [take_append_cons, drop_append_cons, skipLeadingWS_cons32, hv, hk, List.foldl_cons]
      exact ih f (hAdd h0 k v) rest
        (fun e he => hgood e (List.mem_cons_of_mem _ he)) (by simp at hfuel ⊢; omega)

theorem foldl_hAdd_vals_acc {h0 : Header} {k : Bytes} (hfresh : ∀ e ∈ h0, e.1 ≠ k) :
    ∀ (vs : List Bytes) (acc : List Bytes),
    (vs.map (fun v => (k, v))).foldl (fun h e => hAdd h e.1 e.2) (h0 ++ [(k, acc)]) =
      h0 ++ [(k, acc ++ vs)] := by
  intro vs
  induction vs with
  | nil => intro acc; simp [List.foldl]
  | cons v t ih =>
    intro acc
    rw [List.map_cons, List.foldl_cons]
    simp only []
    rw [hAdd_found_last acc v hfresh, ih (acc ++ [v]), List.append_assoc]
    rfl

theorem foldl_hAdd_vals {h0 : Header} {k : Bytes} (hfresh : ∀ e ∈ h0, e.1 ≠ k)
    {vs : List Bytes} (hne : vs ≠ []) :
    (vs.map (fun v => (k, v))).foldl (fun h e => hAdd h e.1 e.2) h0 = h0 ++ [(k, vs)] := by
  rcases vs with _ | ⟨v, t⟩
  · exact absurd rfl hne
  · rw [List.map_cons, List.foldl_cons]
    simp only []
    rw [hAdd_fresh v hfresh, foldl_hAdd_vals_acc hfresh t [v]]
    rfl

theorem foldl_hAdd_linesOf : ∀ (hs : Header) (h0 : Header),
    ((h0 ++ hs).map Prod.fst).Nodup → (∀ e ∈ hs, e.2 ≠ []) →
    (linesOf hs).foldl (fun h e => hAdd h e.1 e.2) h0 = h0 ++ hs := by
  intro hs
  induction hs with
  | nil => intro h0 _ _; simp [linesOf]
  | cons e t ih =>
    intro h0 hnd hne
    obtain ⟨k, vs⟩ := e
    rw [linesOf, List.flatMap_cons, List.foldl_append]
    have hfresh : ∀ e ∈ h0, e.1 ≠ k := by
      intro e he hek
      rw [List.map_append, List.nodup_append] at hnd
      exact hnd.2.2 (List.mem_map_of_mem Prod.fst he)
        (by rw [List.map_cons, hek]; exact List.mem_cons_self _ _)
    rw [foldl_hAdd_vals hfresh (hne (k, vs) (List.mem_cons_self _ _))]
    have hnd' : (((h0 ++ [(k, vs)]) ++ t).map Prod.fst).Nodup := by
      rw [List.append_assoc, List.singleton_append]
      exact hnd
    rw [show t.flatMap (fun e => e.2.map (fun v => (e.1, v))) = linesOf t from rfl,
      ih (h0 ++ [(k, vs)]) hnd' (fun e he => hne e (List.mem_cons_of_mem _ he)),
      List.append_assoc, List.singleton_append]

/-! ### Body-reader step lemmas -/

theorem lrRead_nil (n chunk : Nat) (hn : 0 < n) :
    lrRead n [] chunk = ([], true, n, []) := by
  rw [lrRead, if_neg (by omega), if_pos rfl]

theorem lrRead_step (n : Nat) (s : Bytes) (chunk : Nat) (hn : 0 < n) (hs : s ≠ []) :
    lrRead n s chunk =
      (s.take (min (min chunk n) s.length), false, n - min (min chunk n) s.length,
       s.drop (min (min chunk n) s.length)) := by
  rw [lrRead, if_neg (by omega), if_neg hs]

theorem readLocked_fresh_nil (n chunk : Nat) (hn : 0 < n) :
    readLocked ⟨n, [], false, false⟩ chunk =
      ([], some .unexpectedEofE, ⟨n, [], true, false⟩) := by
  simp [readLocked, lrRead_nil n chunk hn, hn]

theorem readLocked_fresh_step (n : Nat) (s : Bytes) (chunk : Nat) (hn : 0 < n) (hc : 0 < chunk)
    (hs : s ≠ []) :
    readLocked ⟨n, s, false, false⟩ chunk =
      (if n - min (min chunk n) s.length = 0
       then (s.take (min (min chunk n) s.length), some .eofE,
             ⟨n - min (min chunk n) s.length, s.drop (min (min chunk n) s.length), true, false⟩)
       else (s.take (min (min chunk n) s.length), none,
             ⟨n - min (min chunk n) s.length, s.drop (min (min chunk n) s.length), false,
              false⟩)) := by
  have hslen : 0 < s.length := List.length_pos.mpr hs
  have htake : s.take (min (min chunk n) s.length) ≠ [] := by
    intro hnil
    rw [← List.length_eq_zero, List.length_take] at hnil
    omega
  simp only [readLocked, lrRead_step n s chunk hn hs, Bool.false_eq_true, if_false]
  split_ifs with h1 h2 h2
  · rfl
  · exact absurd h1.2 h2
  · exact absurd ⟨htake, h2⟩ h1
  · rfl

theorem bodyValRead_fresh_nil (n chunk : Nat) (hn : 0 < n) :
    bodyValRead (.bodyR ⟨n, [], false, false⟩) chunk =
      ([], some .unexpectedEofE, .bodyR ⟨n, [], true, false⟩) := by
  simp [bodyValRead, bodyRead, readLocked_fresh_nil n chunk hn]

theorem bodyValRead_fresh_step (n : Nat) (s : Bytes) (chunk : Nat) (hn : 0 < n) (hc : 0 < chunk)
    (hs : s ≠ []) :
    bodyValRead (.bodyR ⟨n, s, false, false⟩) chunk =
      (if n - min (min chunk n) s.length = 0
       then (s.take (min (min chunk n) s.length), some .eofE,
             .bodyR ⟨n - min (min chunk n) s.length, s.drop (min (min chunk n) s.length), true,
                     false⟩)
       else (s.take (min (min chunk n) s.length), none,
             .bodyR ⟨n - min (min chunk n) s.length, s.drop (min (min chunk n) s.length), false,
                     false⟩)) := by
  simp only [bodyValRead, bodyRead, Bool.false_eq_true, if_false,
    readLocked_fresh_step n s chunk hn hc hs]
  split_ifs <;> rfl

theorem drainReads_bodyR : ∀ (fuel n : Nat) (s : Bytes) (chunk : Nat),
    0 < n → 0 < chunk → n + 1 ≤ fuel →
    (n ≤ s.length →
      drainReads fuel (.bodyR ⟨n, s, false, false⟩) chunk = (s.take n, some .eofE)) ∧
    (s.length < n →
      drainReads fuel (.bodyR ⟨n, s, false, false⟩) chunk = (s, some .unexpectedEofE)) := by
  intro fuel
  induction fuel with
  | zero => intro n s chunk hn hc hf; omega
  | succ f ih =>
    intro n s chunk hn hc hf
    by_cases hse : s = []
    · subst hse
      refine ⟨fun hle => by simp at hle; omega, fun _ => ?_⟩
      rw [drainReads, bodyValRead_fresh_nil n chunk hn]
    · have hslen : 0 < s.length := List.length_pos.mpr hse
      have ht1 : 0 < min (min chunk n) s.length := by omega
      have ht2 : min (min chunk n) s.length ≤ n := by omega
      have ht3 : min (min chunk n) s.length ≤ s.length := by omega
      by_cases h0 : n - min (min chunk n) s.length = 0
      · -- the single read exhausts the declared length and reports io.EOF
        have htn : min (min chunk n) s.length = n := by omega
        have hread := bodyValRead_fresh_step n s chunk hn hc hse
        rw [if_pos h0] at hread
        refine ⟨fun _ => ?_, fun hlt => by omega⟩
        rw [drainReads, hread, htn]
      · -- bytes remain owed: the read succeeds silently and the drain recurses
        have hread := bodyValRead_fresh_step n s chunk hn hc hse
        rw [if_neg h0] at hread
        have hrec := ih (n - min (min chunk n) s.length) (s.drop (min (min chunk n) s.length))
          chunk (by omega) hc (by omega)
        rw [List.length_drop] at hrec
        refine ⟨fun hle => ?_, fun hlt => ?_⟩
        · rw [drainReads, hread]
          simp only []
          rw [hrec.1 (by omega)]
          rw [show s.take n = s.take (min (min chunk n) s.length) ++
              (s.drop (min (min chunk n) s.length)).take (n - min (min chunk n) s.length) by
            rw [← List.take_add]
            congr 1
            omega]
        · rw [drainReads, hread]
          simp only []
          rw [hrec.2 (by omega), List.take_append_drop]

/-! ### Round-trip support lemmas -/

theorem readMessageCL_inv {h0 : Header} {rest : Bytes} {h : Header} {n : Nat} {b : BodyVal}
    (hp : readMessageCL h0 rest = .ok (h, n, b)) :
    (h = hDel h0 clKey ∧ n = 0 ∧ b = .eofR) ∨
    (h = h0 ∧ n ≤ 2 ^ 31 - 1 ∧ b = mkBody n rest) := by
  unfold readMessageCL at hp
  simp only [] at hp
  split_ifs at hp with hlen hcl
  · rcases hpc : parseContentLength (match hGet h0 clKey with | [v] => trimSpace v | _ => []) with
      _ | ni
    · rw [hpc] at hp
      exact absurd hp (by simp)
    · rw [hpc] at hp
      simp only [] at hp
      split_ifs at hp with hneg
      injection hp with hp'
      obtain ⟨h1, h2⟩ := Prod.mk.injEq .. ▸ hp'
      obtain ⟨h2, h3⟩ := Prod.mk.injEq .. ▸ h2
      refine Or.inr ⟨h1.symm, ?_, ?_⟩
      · have := parseContentLength_bound hpc hneg
        omega
      · rw [← h3, ← h2]
  · injection hp with hp'
    obtain ⟨h1, h2⟩ := Prod.mk.injEq .. ▸ hp'
    obtain ⟨h2, h3⟩ := Prod.mk.injEq .. ▸ h2
    exact Or.inl ⟨h1.symm, h2.symm, h3.symm⟩

theorem hDel_WF {h : Header} (hw : HeaderWF h) (k : Bytes) : HeaderWF (hDel h k) :=
  ⟨hDel_keys_nodup hw.1 k, fun e he => hw.2 e (hDel_entry_mem he)⟩

/-- Inversion of the generic message parse: a successful ReadMessage yields a
well-formed header, a 32-bit-bounded content length, and a body bound by
mkBody to the remaining stream. -/
theorem ReadMessage_inv {bs : Bytes} {h : Header} {n : Nat} {b : BodyVal}
    (hp : ReadMessage bs = .ok (h, n, b)) :
    HeaderWF h ∧ n ≤ 2 ^ 31 - 1 ∧ ∃ rest', b = mkBody n rest' := by
  unfold ReadMessage at hp
  rcases hm : readMIMEHeader bs with _ | ⟨h0, rest'⟩
  · rw [hm] at hp
    exact absurd hp (by simp)
  · rw [hm] at hp
    simp only [] at hp
    have hw0 := readMIMEHeader_WF hm
    rcases readMessageCL_inv hp with ⟨h1, h2, h3⟩ | ⟨h1, h2, h3⟩
    · subst h1 h2 h3
      exact ⟨hDel_WF hw0 clKey, by omega, rest', by rw [mkBody, if_neg (by omega)]⟩
    · subst h1
      exact ⟨hw0, h2, rest', h3⟩

theorem bodyContents_mkBody {n : Nat} {rest bb : Bytes}
    (h : bodyContents (mkBody n rest) = some bb) : bb.length = n := by
  rw [mkBody] at h
  split_ifs at h with hn
  · rw [bodyContents] at h
    simp only [Bool.false_eq_true, if_false] at h
    split_ifs at h with h1
    injection h with h'
    rw [← h', List.length_take]
    omega
  · rw [bodyContents] at h
    injection h with h'
    rw [← h']
    simp only [List.length_nil]
    omega

theorem bodyContents_mkBody_full {n : Nat} {bb : Bytes} (hlen : bb.length = n) :
    bodyContents (mkBody n bb) = some bb := by
  rw [mkBody]
  split_ifs with hn
  · rw [bodyContents]
    simp only [Bool.false_eq_true, if_false]
    rw [if_neg (by omega)]
    rw [← hlen, List.take_length]
  · rw [bodyContents]
    have : bb = [] := List.length_eq_zero.mp (by omega)
    rw [this]

theorem natToDec_not_spacetab (L : Nat) : ∀ c ∈ natToDec L, ¬(c = 32 ∨ c = 9) := by
  intro c hc
  have := natToDec_digits L c hc
  omega

theorem natToDec_no_lf (L : Nat) : (10 : Nat) ∉ natToDec L := by
  intro hc
  have := natToDec_digits L 10 hc
  omega

theorem clKey_entry_WF (L : Nat) : HdrEntryWF (clKey, [natToDec L]) := by
  show canonicalMIMEHeaderKey clKey = clKey ∧ (58 : Nat) ∉ clKey ∧ (10 : Nat) ∉ clKey ∧
    [natToDec L] ≠ [] ∧ ∀ v ∈ [natToDec L], skipLeadingWS v = v ∧ (10 : Nat) ∉ v
  refine ⟨by decide, by decide, by decide, by simp, ?_⟩
  intro v hv
  rw [List.mem_singleton] at hv
  subst hv
  exact ⟨skipLeadingWS_eq_self (natToDec_not_spacetab L), natToDec_no_lf L⟩

theorem linesOf_mem {hs : Header} {e : Bytes × Bytes} (he : e ∈ linesOf hs) :
    ∃ entry ∈ hs, e.1 = entry.1 ∧ e.2 ∈ entry.2 := by
  unfold linesOf at he
  rw [List.mem_flatMap] at he
  obtain ⟨entry, hentry, hmem⟩ := he
  rw [List.mem_map] at hmem
  obtain ⟨v, hv, hve⟩ := hmem
  exact ⟨entry, hentry, by rw [← hve], by rw [← hve]; exact hv⟩

theorem linesOf_good {hs : Header} (hw : ∀ e ∈ hs, HdrEntryWF e) :
    ∀ e ∈ linesOf hs, canonicalMIMEHeaderKey e.1 = e.1 ∧ (58 : Nat) ∉ e.1 ∧
      (10 : Nat) ∉ e.1 ∧ skipLeadingWS e.2 = e.2 ∧ (10 : Nat) ∉ e.2 := by
  intro e he
  obtain ⟨entry, hentry, hk, hv⟩ := linesOf_mem he
  obtain ⟨ec, e58, e10, _, ev⟩ := hw entry hentry
  obtain ⟨ev1, ev2⟩ := ev e.2 hv
  exact ⟨hk ▸ ec, hk ▸ e58, hk ▸ e10, ev1, ev2⟩

theorem serHeaders_append (a b : Header) : serHeaders (a ++ b) = serHeaders a ++ serHeaders b := by
  induction a with
  | nil => rfl
  | cons e t ih =>
    obtain ⟨k, vs⟩ := e
    rw [List.cons_append, serHeaders, serHeaders, ih, List.append_assoc]

theorem serHeaders_concat (a : Header) (k : Bytes) (vs : List Bytes) :
    serHeaders (a ++ [(k, vs)]) = serHeaders a ++ serVals k vs := by
  rw [serHeaders_append, serHeaders, serHeaders, List.append_nil]

theorem hDel_keys_not_mem (h : Header) (k : Bytes) : k ∉ (hDel h k).map Prod.fst := by
  intro hmem
  rw [List.mem_map] at hmem
  obtain ⟨e, he, hek⟩ := hmem
  exact hDel_key_ne he hek

theorem hGet_snoc_self {h : Header} {k : Bytes} (vs : List Bytes)
    (hne : ∀ e ∈ h, e.1 ≠ k) : hGet (h ++ [(k, vs)]) k = vs := by
  rw [hGet_append_left_none _ hne, hGet, if_pos rfl]

/-- readMessageCL on a header whose single Content-Length value is the
serializer-emitted decimal: parses back to the same header, length and
body binding. -/
theorem readMessageCL_single {h0 : Header} {rest : Bytes} {L : Nat}
    (hget : hGet h0 clKey = [natToDec L]) (hL : L ≤ 2 ^ 31 - 1) :
    readMessageCL h0 rest = .ok (h0, L, mkBody L rest) := by
  unfold readMessageCL
  simp only [hget, List.length_singleton]
  rw [if_neg (by omega)]
  rw [trimSpace_eq_self (natToDec_not_ws L)]
  rw [if_pos (by simp [natToDec_ne_nil])]
  rw [parseContentLength_natToDec hL]
  simp only []
  rw [if_neg (by omega)]
  simp

/-- The whole serialized envelope reparses to the serialized header map with
the computed Content-Length entry appended, the same content length, and a
body bound over exactly the emitted body bytes. -/
theorem ReadMessage_of_serialized {h : Header} {n : Nat} {bb : Bytes}
    (hw : HeaderWF h) (hn : n ≤ 2 ^ 31 - 1) (hlen : bb.length = n) :
    ReadMessage
        (serHeaders (hDel h clKey) ++ (serVals clKey [natToDec bb.length] ++ 13 :: 10 :: bb)) =
      .ok (hDel h clKey ++ [(clKey, [natToDec bb.length])], n, mkBody n bb) := by
  have hshape : serHeaders (hDel h clKey) ++ (serVals clKey [natToDec bb.length] ++ 13 :: 10 :: bb)
      = serLinesOf (linesOf (hDel h clKey ++ [(clKey, [natToDec bb.length])])) ++ 13 :: 10 :: bb := by
    rw [← serHeaders_eq_serLinesOf, serHeaders_concat, List.append_assoc]
  have hWFall : ∀ e ∈ hDel h clKey ++ [(clKey, [natToDec bb.length])], HdrEntryWF e := by
    intro e he
    rcases List.mem_append.mp he with h1 | h2
    · exact hw.2 e (hDel_entry_mem h1)
    · rw [List.mem_singleton] at h2
      exact h2 ▸ clKey_entry_WF bb.length
  have hkeys : ((hDel h clKey ++ [(clKey, [natToDec bb.length])]).map Prod.fst).Nodup := by
    rw [List.map_append, List.nodup_append]
    refine ⟨hDel_keys_nodup hw.1 clKey, by simp, ?_⟩
    intro a ha hb
    simp only [List.map_cons, List.map_nil, List.mem_singleton] at hb
    exact hDel_keys_not_mem h clKey (hb ▸ ha)
  have hfuel : (linesOf (hDel h clKey ++ [(clKey, [natToDec bb.length])])).length <
      (serHeaders (hDel h clKey) ++
        (serVals clKey [natToDec bb.length] ++ 13 :: 10 :: bb)).length + 1 := by
    have h1 := serLinesOf_length_le (linesOf (hDel h clKey ++ [(clKey, [natToDec bb.length])]))
    have h2 : (serLinesOf (linesOf (hDel h clKey ++ [(clKey, [natToDec bb.length])]))).length ≤
        (serHeaders (hDel h clKey) ++
          (serVals clKey [natToDec bb.length] ++ 13 :: 10 :: bb)).length := by
      rw [hshape]
      simp
    omega
  rw [ReadMessage, readMIMEHeader, hshape]
  rw [readMIMEHeaderAux_serLines _ _ [] bb
    (linesOf_good hWFall) (by rw [← hshape]; exact hfuel)]
  simp only []
  rw [foldl_hAdd_linesOf _ [] (by rw [List.nil_append]; exact hkeys) (by
    intro e he
    rcases List.mem_append.mp he with h1 | h2
    · exact (hw.2 e (hDel_entry_mem h1)).2.2.2.1
    · rw [List.mem_singleton] at h2
      rw [h2]
      simp)]
  rw [List.nil_append]
  rw [readMessageCL_single
    (hGet_snoc_self [natToDec bb.length] (fun e he => hDel_key_ne he)) (by omega)]
  rw [hlen]

/-- Serializing the reparsed envelope reproduces the same tail bytes. -/
theorem messageWrite_of_reparsed {h : Header} {n : Nat} {bb : Bytes} (hlen : bb.length = n)
    (v' : Bytes) :
    messageWrite ⟨v', hDel h clKey ++ [(clKey, [natToDec bb.length])], n, mkBody n bb⟩ =
      some (serHeaders (hDel h clKey) ++ (serVals clKey [natToDec bb.length] ++ 13 :: 10 :: bb)) := by
  rw [messageWrite]
  simp only []
  rw [bodyContents_mkBody_full hlen]
  rw [Option.map_some']
  congr 1
  rw [hDel_append, hDel_hDel]
  rw [show hDel [(clKey, [natToDec bb.length])] clKey = [] from by rw [hDel, if_pos rfl]; rfl]
  rw [List.append_nil]

theorem parseRequestLine_inv {line m u v : Bytes}
    (hp : parseRequestLine line = some (m, u, v)) :
    (32 : Nat) ∉ m ∧ (32 : Nat) ∉ u ∧ (∀ b ∈ m, b ∈ line) ∧ (∀ b ∈ u, b ∈ line) ∧
      ∀ b ∈ v, b ∈ line := by
  unfold parseRequestLine at hp
  rcases h1 : idxOf 32 line with _ | s1
  · rw [h1] at hp; exact absurd hp (by simp)
  · rw [h1] at hp
    simp only [] at hp
    rcases h2 : idxOf 32 (line.drop (s1 + 1)) with _ | s2
    · rw [h2] at hp; exact absurd hp (by simp)
    · rw [h2] at hp
      simp only [] at hp
      injection hp with hp'
      obtain ⟨hm, hrest⟩ := Prod.mk.injEq .. ▸ hp'
      obtain ⟨hu, hv⟩ := Prod.mk.injEq .. ▸ hrest
      subst hm hu hv
      refine ⟨(idxOf_some h1).2, (idxOf_some h2).2, ?_, ?_, ?_⟩
      · exact fun b hb => List.take_subset _ _ hb
      · exact fun b hb => List.drop_subset _ _ (List.take_subset _ _ hb)
      · exact fun b hb => List.drop_subset _ _ (List.drop_subset _ _ hb)

theorem splitN3_mem {line : Bytes} {part : Bytes} (hp : part ∈ splitN3 line) :
    ∀ b ∈ part, b ∈ line := by
  unfold splitN3 at hp
  rcases h1 : idxOf 32 line with _ | i
  · rw [h1] at hp
    simp only [List.mem_singleton] at hp
    subst hp
    exact fun b hb => hb
  · rw [h1] at hp
    simp only [] at hp
    rcases h2 : idxOf 32 (line.drop (i + 1)) with _ | j
    · rw [h2] at hp
      simp only [List.mem_cons, List.mem_singleton, List.not_mem_nil, or_false] at hp
      rcases hp with hp | hp <;> subst hp
      · exact fun b hb => List.take_subset _ _ hb
      · exact fun b hb => List.drop_subset _ _ hb
    · rw [h2] at hp
      simp only [List.mem_cons, List.mem_singleton, List.not_mem_nil, or_false] at hp
      rcases hp with hp | hp | hp <;> subst hp
      · exact fun b hb => List.take_subset _ _ hb
      · exact fun b hb => List.drop_subset _ _ (List.take_subset _ _ hb)
      · exact fun b hb => List.drop_subset _ _ (List.drop_subset _ _ hb)

theorem intToDec_mem {c : Int} : ∀ b ∈ intToDec c, b = 45 ∨ (48 ≤ b ∧ b ≤ 57) := by
  intro b hb
  unfold intToDec at hb
  split_ifs at hb
  · rcases List.mem_cons.mp hb with h1 | h2
    · exact Or.inl h1
    · exact Or.inr (natToDec_digits _ b h2)
  · exact Or.inr (natToDec_digits _ b hb)

theorem ParseSIPVersion_lit : ParseSIPVersion sipLit = some (2, 0) := by decide

theorem startline_assoc (a b c t : Bytes) (x y : Nat) :
    a ++ x :: (b ++ y :: (c ++ 13 :: 10 :: t)) = (a ++ x :: (b ++ y :: c)) ++ 13 :: 10 :: t := by
  simp [List.append_assoc]

/-! ### Claim theorems -/

/-- C1 counterexample: NewRequest — one of the codec constructors named by
the claim — accepts a method containing a space.  The resulting message
serializes, but its serialization does not reparse (the displaced version
token is rejected), so serialize(parse(serialize m)) cannot equal
serialize m for this codec-produced message. -/
theorem roundtrip_fails_for_constructor :
    requestWrite (NewRequest (strBytes "IN VITE") (strBytes "sip:x") []) =
      some (strBytes "IN VITE sip:x SIP/2.0\r\nContent-Length: 0\r\n\r\n") ∧
    ReadRequest (strBytes "IN VITE sip:x SIP/2.0\r\nContent-Length: 0\r\n\r\n") =
      .error .malformedVersion := by
  exact ⟨by decide, by decide⟩

/-- C1 (amended): for every message the codec itself parsed — any output of
ReadRequest or ReadResponse — serializing it, parsing the serialized bytes
with the matching reader, and serializing the parse result reproduces the
first serialization byte-for-byte:
`(parse out).map serialize = ok (some out)` whenever `serialize m = some out`
for a parser-produced `m`.  Constructor-built messages are excluded: a
method, URI or reason phrase containing whitespace or CRLF breaks the law,
as the counterexample shows. -/
theorem serialize_parse_serialize_roundtrip :
    (∀ (bs : Bytes) (m : GoRequest) (out : Bytes), ReadRequest bs = .ok m →
      requestWrite m = some out →
      (ReadRequest out).map requestWrite = .ok (some out)) ∧
    (∀ (bs : Bytes) (r : GoResponse) (out : Bytes), ReadResponse bs = .ok r →
      responseWrite r = some out →
      (ReadResponse out).map responseWrite = .ok (some out)) := by
  constructor
  · -- requests
    intro bs m out hp hw
    rw [ReadRequest] at hp
    rcases hrl : readLine bs with _ | ⟨line, rest⟩
    · rw [hrl] at hp; exact absurd hp (by simp)
    rw [hrl] at hp
    simp only [] at hp
    rcases hpl : parseRequestLine line with _ | ⟨mth, uri, v⟩
    · rw [hpl] at hp; exact absurd hp (by simp)
    rw [hpl] at hp
    simp only [] at hp
    rcases hv : ParseSIPVersion v with _ | vp
    · rw [hv] at hp; exact absurd hp (by simp)
    rw [hv] at hp
    simp only [] at hp
    rcases hm : ReadMessage rest with e | ⟨h, n, b⟩
    · rw [hm] at hp; exact absurd hp (by simp)
    rw [hm] at hp
    simp only [] at hp
    injection hp with hp'
    subst hp'
    obtain ⟨hm32, hu32, hmline, huline, _⟩ := parseRequestLine_inv hpl
    have hlf := readLine_no_lf hrl
    obtain ⟨hWF, hbound, rest', hbody⟩ := ReadMessage_inv hm
    rw [requestWrite] at hw
    rcases hmw : messageWrite (⟨v, h, n, b⟩ : GoMessage) with _ | tail
    · rw [hmw] at hw; exact absurd hw (by simp)
    rw [hmw, Option.map_some'] at hw
    injection hw with hw'
    subst hw'
    rw [messageWrite] at hmw
    rcases hbc : bodyContents b with _ | bb
    · rw [hbc] at hmw; exact absurd hmw (by simp)
    rw [hbc, Option.map_some'] at hmw
    injection hmw with hmw'
    subst hmw'
    have hbblen : bb.length = n := by
      rw [hbody] at hbc
      exact bodyContents_mkBody hbc
    have h10 : (10 : Nat) ∉ mth ++ 32 :: (uri ++ 32 :: sipLit) := by
      intro hmem
      rcases List.mem_append.mp hmem with h1 | h2
      · exact hlf (hmline 10 h1)
      · rcases List.mem_cons.mp h2 with h3 | h4
        · omega
        · rcases List.mem_append.mp h4 with h5 | h6
          · exact hlf (huline 10 h5)
          · rcases List.mem_cons.mp h6 with h7 | h8
            · omega
            · exact (by decide : (10 : Nat) ∉ sipLit) h8
    have hparse2 : ReadRequest (mth ++ 32 :: (uri ++ 32 ::
        (sipLit ++ 13 :: 10 :: (serHeaders (hDel h clKey) ++
          (serVals clKey [natToDec bb.length] ++ 13 :: 10 :: bb))))) =
        .ok ⟨mth, uri, ⟨sipLit, hDel h clKey ++ [(clKey, [natToDec bb.length])], n,
          mkBody n bb⟩⟩ := by
      rw [ReadRequest, startline_assoc, readLine_append _ _ h10]
      simp only []
      rw [parseRequestLine_append mth uri sipLit hm32 hu32]
      simp only []
      rw [ParseSIPVersion_lit]
      simp only []
      rw [ReadMessage_of_serialized hWF hbound hbblen]
    rw [hparse2]
    rw [Except.map]
    rw [requestWrite]
    simp only []
    rw [messageWrite_of_reparsed hbblen sipLit, Option.map_some']
  · -- responses
    intro bs r out hp hw
    rw [ReadResponse] at hp
    rcases hrl : readLine bs with _ | ⟨line, rest⟩
    · rw [hrl] at hp; exact absurd hp (by simp)
    rw [hrl] at hp
    simp only [] at hp
    split_ifs at hp with hflen
    rcases hcode : goAtoi ((splitN3 line).getD 1 []) with _ | code
    · rw [hcode] at hp; exact absurd hp (by simp)
    rw [hcode] at hp
    simp only [] at hp
    rcases hvers : ParseSIPVersion ((splitN3 line).getD 0 []) with _ | vp
    · rw [hvers] at hp; exact absurd hp (by simp)
    rw [hvers] at hp
    simp only [] at hp
    rcases hm : ReadMessage rest with e | ⟨h, n, b⟩
    · rw [hm] at hp; exact absurd hp (by simp)
    rw [hm] at hp
    simp only [] at hp
    injection hp with hp'
    subst hp'
    have hlf := readLine_no_lf hrl
    obtain ⟨hWF, hbound, rest', hbody⟩ := ReadMessage_inv hm
    rw [responseWrite] at hw
    rcases hmw : messageWrite (⟨(splitN3 line).getD 0 [], h, n, b⟩ : GoMessage) with _ | tail
    · rw [hmw] at hw; exact absurd hw (by simp)
    rw [hmw, Option.map_some'] at hw
    injection hw with hw'
    subst hw'
    rw [messageWrite] at hmw
    rcases hbc : bodyContents b with _ | bb
    · rw [hbc] at hmw; exact absurd hmw (by simp)
    rw [hbc, Option.map_some'] at hmw
    injection hmw with hmw'
    subst hmw'
    have hbblen : bb.length = n := by
      rw [hbody] at hbc
      exact bodyContents_mkBody hbc
    have hcbounds := goAtoi_bound hcode
    have hreason_line : ∀ x ∈ (splitN3 line).getD 2 [], x ∈ line := by
      rcases hs3 : splitN3 line with _ | ⟨a, t1⟩
    -- the getD falls back to [] when the split has no third field
      · intro x hx; simp at hx
      · rcases t1 with _ | ⟨b2, t2⟩
        · intro x hx; simp [List.getD] at hx
        · rcases t2 with _ | ⟨c, t3⟩
          · intro x hx; simp [List.getD] at hx
          · intro x hx
            refine @splitN3_mem line c ?_ x ?_
            · rw [hs3]; simp
            · simpa [List.getD] using hx
    have h32c : (32 : Nat) ∉ intToDec code := by
      intro hmem
      rcases intToDec_mem 32 hmem with h1 | h2 <;> omega
    have h10c : (10 : Nat) ∉ intToDec code := by
      intro hmem
      rcases intToDec_mem 10 hmem with h1 | h2 <;> omega
    have h10 : (10 : Nat) ∉ sipLit ++ 32 :: (intToDec code ++ 32 :: (splitN3 line).getD 2 []) := by
      intro hmem
      rcases List.mem_append.mp hmem with h1 | h2
      · exact (by decide : (10 : Nat) ∉ sipLit) h1
      · rcases List.mem_cons.mp h2 with h3 | h4
        · omega
        · rcases List.mem_append.mp h4 with h5 | h6
          · exact h10c h5
          · rcases List.mem_cons.mp h6 with h7 | h8
            · omega
            · exact hlf (hreason_line 10 h8)
    have hparse2 : ReadResponse (sipLit ++ 32 :: (intToDec code ++ 32 ::
        ((splitN3 line).getD 2 [] ++ 13 :: 10 :: (serHeaders (hDel h clKey) ++
          (serVals clKey [natToDec bb.length] ++ 13 :: 10 :: bb))))) =
        .ok ⟨code, (splitN3 line).getD 2 [],
          ⟨sipLit, hDel h clKey ++ [(clKey, [natToDec bb.length])], n, mkBody n bb⟩⟩ := by
      rw [ReadResponse, startline_assoc, readLine_append _ _ h10]
      simp only []
      rw [splitN3_append sipLit (intToDec code) ((splitN3 line).getD 2 [])
        (by decide) h32c]
      rw [if_neg (by simp)]
      rw [show ([sipLit, intToDec code, (splitN3 line).getD 2 []] : List Bytes).getD 1 [] =
        intToDec code from rfl]
      rw [goAtoi_intToDec (by omega) (by omega)]
      simp only []
      rw [show ([sipLit, intToDec code, (splitN3 line).getD 2 []] : List Bytes).getD 0 [] =
        sipLit from rfl]
      rw [ParseSIPVersion_lit]
      simp only []
      rw [ReadMessage_of_serialized hWF hbound hbblen]
      rw [show ([sipLit, intToDec code, (splitN3 line).getD 2 []] : List Bytes).getD 2 [] =
        (splitN3 line).getD 2 [] from rfl]
    rw [hparse2]
    rw [Except.map]
    rw [responseWrite]
    simp only []
    rw [messageWrite_of_reparsed hbblen sipLit, Option.map_some']

/-- Witness for the C1 amended theorem: a concrete request whose parse,
serialization, reparse and reserialization agree byte-for-byte, and a
concrete response likewise. -/
theorem serialize_parse_serialize_roundtrip_witness :
    (ReadRequest (strBytes "A b SIP/2.0\r\nVia: x\r\nContent-Length: 2\r\n\r\nhi")).map
      requestWrite =
      .ok (some (strBytes "A b SIP/2.0\r\nVia: x\r\nContent-Length: 2\r\n\r\nhi")) ∧
    (ReadResponse (strBytes "SIP/2.0 180 Ring ring\r\nVia: a\r\nContent-Length: 0\r\n\r\n")).map
      responseWrite =
      .ok (some (strBytes "SIP/2.0 180 Ring ring\r\nVia: a\r\nContent-Length: 0\r\n\r\n")) :=
  ⟨serialize_parse_serialize_roundtrip.1
      (strBytes "A b SIP/2.0\r\nVia: x\r\nContent-Length: 2\r\n\r\nhi")
      ⟨[65], [98], ⟨sipLit, [(strBytes "Via", [[120]]), (clKey, [[50]])], 2,
        .bodyR ⟨2, [104, 105], false, false⟩⟩⟩
      (strBytes "A b SIP/2.0\r\nVia: x\r\nContent-Length: 2\r\n\r\nhi")
      (by decide) (by decide),
   serialize_parse_serialize_roundtrip.2
      (strBytes "SIP/2.0 180 Ring ring\r\nVia: a\r\nContent-Length: 0\r\n\r\n")
      ⟨180, strBytes "Ring ring", ⟨sipLit, [(strBytes "Via", [[97]]), (clKey, [[48]])], 0,
        .eofR⟩⟩
      (strBytes "SIP/2.0 180 Ring ring\r\nVia: a\r\nContent-Length: 0\r\n\r\n")
      (by decide) (by decide)⟩

/-- C4 counterexample: on a fresh client transaction, the first Close
succeeds; the second Close faults (Go panics closing a closed channel); and
after the first Close, GetState is CALLING, not TERMINATED. -/
theorem transaction_close_twice_panics :
    transactionClose newClientTransaction = some ⟨.CALLING, 0, true⟩ ∧
    transactionClose ⟨.CALLING, 0, true⟩ = none ∧
    GetState ⟨.CALLING, 0, true⟩ ≠ .TERMINATED := by
  refine ⟨rfl, rfl, by decide⟩

/-- C4 (amended): Close on a transaction whose quit channel is open closes
the channel and returns without fault; Close never changes GetState; a
second Close faults (close of a closed channel). -/
theorem transaction_close_once_safe (t : GoTransaction) (h : t.quitClosed = false) :
    transactionClose t = some { t with quitClosed := true } ∧
    GetState { t with quitClosed := true } = GetState t ∧
    transactionClose { t with quitClosed := true } = none := by
  refine ⟨?_, rfl, ?_⟩
  · rw [transactionClose, if_neg (by rw [h]; simp)]
  · rw [transactionClose, if_pos rfl]

/-- Witness for the C4 amended theorem at a concrete transaction. -/
theorem transaction_close_once_safe_witness :
    transactionClose ⟨.TRYING, 7, false⟩ = some ⟨.TRYING, 7, true⟩ ∧
    GetState ⟨.TRYING, 7, true⟩ = GetState ⟨.TRYING, 7, false⟩ ∧
    transactionClose ⟨.TRYING, 7, true⟩ = none :=
  transaction_close_once_safe ⟨.TRYING, 7, false⟩ rfl

theorem runRegEvents_joins_disjoint : ∀ (ts reg : List Nat), ts.Nodup →
    (∀ t ∈ ts, t ∉ reg) → runRegEvents reg (ts.map RegEvent.join) = reg ++ ts := by
  intro ts
  induction ts with
  | nil => intro reg _ _; simp [runRegEvents]
  | cons t ts ih =>
    intro reg hnd hdisj
    rw [List.map_cons, runRegEvents, List.foldl_cons]
    simp only [applyRegEvent]
    rw [if_neg (hdisj t (List.mem_cons_self _ _))]
    have hnd' := List.nodup_cons.mp hnd
    have := ih (reg ++ [t]) hnd'.2 (by
      intro x hx hmem
      rcases List.mem_append.mp hmem with h1 | h2
      · exact hdisj x (List.mem_cons_of_mem _ hx) h1
      · rw [List.mem_singleton] at h2
        exact hnd'.1 (h2 ▸ hx))
    rw [runRegEvents] at this
    rw [this, List.append_assoc, List.singleton_append]

/-- C8: starting from an empty registry, processing N join events carrying N
distinct transactions (and no leaves) one at a time in observation order
leaves the registry holding exactly those N transactions, in order — size
exactly N, nothing lost or overwritten. -/
theorem provider_run_joins_register_all (ts : List Nat) (h : ts.Nodup) :
    runRegEvents [] (ts.map RegEvent.join) = ts ∧
    (runRegEvents [] (ts.map RegEvent.join)).length = ts.length := by
  have := runRegEvents_joins_disjoint ts [] h (by simp)
  rw [List.nil_append] at this
  exact ⟨this, by rw [this]⟩

/-- Witness for C8 at three distinct transactions. -/
theorem provider_run_joins_register_all_witness :
    runRegEvents [] ([0, 1, 2].map RegEvent.join) = [0, 1, 2] ∧
    (runRegEvents [] ([0, 1, 2].map RegEvent.join)).length = [0, 1, 2].length :=
  provider_run_joins_register_all [0, 1, 2] (by decide)

/-- C9 counterexample: a provider with one registered transaction runs its
shutdown to completion (Stop signals, then the wait returns with zero live
tasks); after Stop has returned, the transaction registry is NOT empty. -/
theorem provider_stop_registry_not_empty :
    ProvReach ⟨[7], 0, false, false, false⟩ ⟨[7], 0, true, true, true⟩ ∧
    (⟨[7], 0, true, true, true⟩ : ProvState).stopReturned = true ∧
    (⟨[7], 0, true, true, true⟩ : ProvState).transactions ≠ [] := by
  refine ⟨?_, rfl, by decide⟩
  have h1 : ProvStep ⟨[7], 0, false, false, false⟩ ⟨[7], 0, true, true, false⟩ :=
    ProvStep.stopSignal ⟨[7], 0, false, false, false⟩ rfl
  have h2 : ProvStep ⟨[7], 0, true, true, false⟩ ⟨[7], 0, true, true, true⟩ :=
    ProvStep.stopWait ⟨[7], 0, true, true, false⟩ rfl rfl rfl
  exact Relation.ReflTransGen.tail (Relation.ReflTransGen.single h1) h2

/-- C9 (amended): along any shutdown execution started before Stop returned,
once Stop has returned the task counter is zero (every spawned
acceptor/connection task has exited) and the transaction Close loop has run;
and the registry contents are never changed by shutdown — Stop does not
empty the registry. -/
theorem provider_stop_waits_registry_unchanged (s0 s : ProvState)
    (h0 : s0.stopReturned = false) (hr : ProvReach s0 s) :
    s.transactions = s0.transactions ∧
    (s.stopReturned = true → s.tasks = 0 ∧ s.txAllClosed = true) := by
  induction hr with
  | refl => exact ⟨rfl, fun hs => absurd hs (by rw [h0]; simp)⟩
  | tail hsteps hstep ih =>
    obtain ⟨htx, himp⟩ := ih
    cases hstep with
    | taskSpawn k hk =>
      exact ⟨htx, fun hs => by obtain ⟨h1, _⟩ := himp hs; omega⟩
    | taskExit k hk =>
      exact ⟨htx, fun hs => by obtain ⟨h1, _⟩ := himp hs; omega⟩
    | stopSignal hq =>
      exact ⟨htx, fun hs => ⟨(himp hs).1, rfl⟩⟩
    | stopWait hq htc htk =>
      exact ⟨htx, fun _ => ⟨htk, htc⟩⟩

/-- C3: a message body bound by the parser to a declared content length `n`
(mkBody, Message.go lines 105-109) read to exhaustion with any positive
chunk size yields exactly the first `n` bytes of the remaining stream and
then signals io.EOF; if the underlying stream holds fewer than `n` bytes,
the drain yields what there is and reports io.ErrUnexpectedEOF instead of a
silently short body. -/
theorem body_yields_exactly_content_length (n : Nat) (s : Bytes) (chunk fuel : Nat)
    (hc : 0 < chunk) (hf : n + 1 ≤ fuel) :
    (n ≤ s.length → drainReads fuel (mkBody n s) chunk = (s.take n, some .eofE)) ∧
    (s.length < n → drainReads fuel (mkBody n s) chunk = (s, some .unexpectedEofE)) := by
  rcases Nat.eq_zero_or_pos n with h0 | hp
  · subst h0
    rcases fuel with _ | f
    · omega
    · refine ⟨fun _ => ?_, fun hlt => by omega⟩
      rw [mkBody, if_neg (by omega)]
      rw [drainReads]
      simp [bodyValRead]
  · rw [mkBody, if_pos hp]
    exact drainReads_bodyR fuel n s chunk hp hc hf

/-- Witness for C3: a two-byte body over a three-byte stream yields exactly
two bytes then EOF; over a one-byte stream it reports premature EOF. -/
theorem body_yields_exactly_content_length_witness :
    drainReads 3 (mkBody 2 [104, 105, 106]) 1 = ([104, 105], some .eofE) ∧
    drainReads 3 (mkBody 2 [104]) 1 = ([104], some .unexpectedEofE) :=
  ⟨(body_yields_exactly_content_length 2 [104, 105, 106] 1 3 (by decide) (by decide)).1
      (by decide),
   (body_yields_exactly_content_length 2 [104] 1 3 (by decide) (by decide)).2 (by decide)⟩

/-- C10 counterexample: a successfully parsed message with declared length 0
carries the shared eofReader as its body; Close on it is a no-op, and a
subsequent Read returns io.EOF — not ErrBodyReadAfterClose as the claim
requires of every parsed message body. -/
theorem body_read_after_close_eofReader :
    ReadRequest (strBytes "A b SIP/2.0\r\nContent-Length: 0\r\n\r\n") =
      .ok ⟨[65], [98], ⟨sipLit, [(clKey, [[48]])], 0, .eofR⟩⟩ ∧
    bodyValClose .eofR = (.eofR, none) ∧
    bodyValRead .eofR 3 = ([], some .eofE, .eofR) ∧
    BodyErr.eofE ≠ .bodyReadAfterClose := by
  exact ⟨by decide, rfl, rfl, by decide⟩

/-- C10 (amended): for a declared-length body (the `body` struct), Close
marks the body closed and every subsequent Read returns zero bytes with
ErrBodyReadAfterClose; for a zero-length parsed body (the shared eofReader)
a Read after Close returns zero bytes with io.EOF.  In both cases a read on
a closed body never returns data. -/
theorem body_read_after_close (st : BodyState) :
    ((bodyClose st).1).closed = true ∧
    (∀ st2 : BodyState, st2.closed = true → ∀ q,
      bodyRead st2 q = ([], some .bodyReadAfterClose, st2)) ∧
    (∀ q, bodyValRead (bodyValClose .eofR).1 q = ([], some .eofE, .eofR)) := by
  refine ⟨?_, ?_, fun q => rfl⟩
  · rw [bodyClose]
    split_ifs with h1 h2
    · exact h1
    · rfl
    · rfl
  · intro st2 h2 q
    rw [bodyRead, if_pos h2]

/-- Witness for the C10 amended theorem at a concrete body state. -/
theorem body_read_after_close_witness :
    ((bodyClose ⟨2, [104, 105], false, false⟩).1).closed = true ∧
    bodyRead ⟨2, [104, 105], false, true⟩ 3 =
      ([], some .bodyReadAfterClose, ⟨2, [104, 105], false, true⟩) ∧
    bodyValRead (bodyValClose .eofR).1 3 = ([], some .eofE, .eofR) := by
  have h := body_read_after_close ⟨2, [104, 105], false, false⟩
  exact ⟨h.1, h.2.1 ⟨2, [104, 105], false, true⟩ rfl 3, h.2.2 3⟩

/-- C2: any input byte stream whose header section carries more than one
Content-Length value makes ReadMessage fail with the multiple-Content-Length
error, and hence ReadRequest and ReadResponse fail the same way, shown on
concrete duplicated-header messages. -/
theorem multiple_content_length_fails :
    (∀ (bs : Bytes) (h : Header) (rest : Bytes), readMIMEHeader bs = some (h, rest) →
      1 < (hGet h clKey).length → ReadMessage bs = .error .multipleContentLength) ∧
    ReadRequest (strBytes "A b SIP/2.0\r\nContent-Length: 0\r\nContent-Length: 0\r\n\r\n") =
      .error .multipleContentLength ∧
    ReadResponse (strBytes "SIP/2.0 200 OK\r\nContent-Length: 1\r\nContent-Length: 1\r\n\r\nx") =
      .error .multipleContentLength := by
  refine ⟨?_, by decide, by decide⟩
  intro bs h rest hm hl
  rw [ReadMessage, hm]
  unfold readMessageCL
  simp only [if_pos hl]

/-- Witness for the C2 universal part at a concrete duplicated header. -/
theorem multiple_content_length_fails_witness :
    ReadMessage (strBytes "Content-Length: 0\r\nContent-Length: 0\r\n\r\n") =
      .error .multipleContentLength :=
  multiple_content_length_fails.1 (strBytes "Content-Length: 0\r\nContent-Length: 0\r\n\r\n")
    [(clKey, [[48], [48]])] [] (by decide) (by decide)

/-- C6: an input whose header section carries no Content-Length value
parses successfully with content length 0, the (absent) Content-Length field
deleted from the header, and the always-EOF body that yields zero bytes;
shown also on a concrete full request. -/
theorem no_content_length_means_zero (p : Nat) :
    (∀ (bs : Bytes) (h : Header) (rest : Bytes), readMIMEHeader bs = some (h, rest) →
      hGet h clKey = [] →
      ReadMessage bs = .ok (hDel h clKey, 0, .eofR) ∧ hGet (hDel h clKey) clKey = []) ∧
    bodyValRead .eofR p = ([], some .eofE, .eofR) ∧
    ReadRequest (strBytes "OPTIONS sip:a SIP/2.0\r\nVia: x\r\n\r\n") =
      .ok ⟨strBytes "OPTIONS", strBytes "sip:a",
           ⟨sipLit, [(strBytes "Via", [[120]])], 0, .eofR⟩⟩ := by
  refine ⟨?_, rfl, by decide⟩
  intro bs h rest hm hl
  rw [ReadMessage, hm]
  simp only []
  unfold readMessageCL
  rw [hl]
  exact ⟨by simp, hGet_hDel h clKey⟩

/-- Witness for C6 at a concrete header section without Content-Length. -/
theorem no_content_length_means_zero_witness :
    ReadMessage (strBytes "Via: x\r\n\r\n") =
      .ok (hDel [(strBytes "Via", [[120]])] clKey, 0, .eofR) ∧
    hGet (hDel [(strBytes "Via", [[120]])] clKey) clKey = [] :=
  (no_content_length_means_zero 1).1 (strBytes "Via: x\r\n\r\n")
    [(strBytes "Via", [[120]])] [] (by decide) (by decide)

/-- C5 counterexample: the start line "INVITE sip:bob SIP/1.0" carries a
version token different from the literal "SIP/2.0", yet ReadRequest accepts
the message. -/
theorem non_literal_version_accepted :
    ReadRequest (strBytes "INVITE sip:bob SIP/1.0\r\n\r\n") =
      .ok ⟨strBytes "INVITE", strBytes "sip:bob", ⟨strBytes "SIP/1.0", [], 0, .eofR⟩⟩ ∧
    strBytes "SIP/1.0" ≠ sipLit := by
  exact ⟨by decide, by decide⟩

/-- C5 (amended): a start-line version token is accepted exactly when
ParseSIPVersion accepts it — the literal "SIP/2.0" or any "SIP/major.minor"
whose components parse as integers in [0, 1000000]; a token ParseSIPVersion
rejects makes ReadRequest (and ReadResponse, after its status-code parse)
fail with the malformed-version error, and "SIP/1.0" in particular is
accepted although it differs from the literal. -/
theorem version_accepted_iff_ParseSIPVersion
    (bs line rest m u v : Bytes) (f : List Bytes) (code : Int) :
    (readLine bs = some (line, rest) → parseRequestLine line = some (m, u, v) →
      ParseSIPVersion v = none → ReadRequest bs = .error .malformedVersion) ∧
    (readLine bs = some (line, rest) → f = splitN3 line → ¬f.length < 2 →
      goAtoi (f.getD 1 []) = some code → ParseSIPVersion (f.getD 0 []) = none →
      ReadResponse bs = .error .malformedVersion) ∧
    ParseSIPVersion (strBytes "SIP/1.0") = some (1, 0) := by
  refine ⟨?_, ?_, by decide⟩
  · intro hrl hpl hv
    rw [ReadRequest, hrl]
    simp only []
    rw [hpl]
    simp only []
    rw [hv]
  · intro hrl hf hlen hcode hv
    rw [ReadResponse, hrl]
    simp only []
    rw [← hf, if_neg hlen, hcode]
    simp only []
    rw [hv]

/-- Witness for the C5 amended theorem on concrete malformed-version inputs. -/
theorem version_accepted_iff_ParseSIPVersion_witness :
    ReadRequest (strBytes "INVITE sip:bob SIP/9\r\n\r\n") = .error .malformedVersion ∧
    ReadResponse (strBytes "sip/2.0 200 OK\r\n\r\n") = .error .malformedVersion := by
  have h := version_accepted_iff_ParseSIPVersion
    (strBytes "INVITE sip:bob SIP/9\r\n\r\n") (strBytes "INVITE sip:bob SIP/9") [13, 10]
    (strBytes "INVITE") (strBytes "sip:bob") (strBytes "SIP/9") [] 0
  have h2 := version_accepted_iff_ParseSIPVersion
    (strBytes "sip/2.0 200 OK\r\n\r\n") (strBytes "sip/2.0 200 OK") [13, 10]
    [] [] [] (splitN3 (strBytes "sip/2.0 200 OK")) 200
  exact ⟨h.1 (by decide) (by decide) (by decide),
         h2.2.1 (by decide) rfl (by decide) (by decide) (by decide)⟩

/-- C7 counterexample: the status line "SIP/2.0 200" has only two
whitespace-separated tokens, yet ReadResponse parses it successfully (with
an empty reason phrase). -/
theorem two_token_status_line_accepted :
    ReadResponse (strBytes "SIP/2.0 200\r\n\r\n") = .ok ⟨200, [], ⟨sipLit, [], 0, .eofR⟩⟩ ∧
    (splitN3 (strBytes "SIP/2.0 200")).length = 2 := by
  exact ⟨by decide, by decide⟩

/-- C7 (amended): a request line with fewer than three space-separated
tokens (fewer than two spaces) fails with the malformed-start-line error; a
status line fails only when it has fewer than two tokens (no space at all),
while a two-token status line parses with an empty reason phrase. -/
theorem start_line_token_requirements (bs line rest : Bytes) :
    (readLine bs = some (line, rest) → line.count 32 < 2 →
      ReadRequest bs = .error .malformedStartLine) ∧
    (readLine bs = some (line, rest) → line.count 32 = 0 →
      ReadResponse bs = .error .malformedStartLine) ∧
    ReadResponse (strBytes "SIP/2.0 200\r\n\r\n") = .ok ⟨200, [], ⟨sipLit, [], 0, .eofR⟩⟩ := by
  refine ⟨?_, ?_, by decide⟩
  · intro hrl hcount
    rw [ReadRequest, hrl]
    simp only []
    rw [parseRequestLine_none hcount]
  · intro hrl hcount
    rw [ReadResponse, hrl]
    simp only []
    rw [splitN3_single hcount, if_pos (by simp)]

/-- Witness for the C7 amended theorem on concrete short start lines. -/
theorem start_line_token_requirements_witness :
    ReadRequest (strBytes "INVITE sip:bob\r\n\r\n") = .error .malformedStartLine ∧
    ReadResponse (strBytes "SIP/2.0\r\n\r\n") = .error .malformedStartLine := by
  have h1 := start_line_token_requirements (strBytes "INVITE sip:bob\r\n\r\n")
    (strBytes "INVITE sip:bob") [13, 10]
  have h2 := start_line_token_requirements (strBytes "SIP/2.0\r\n\r\n") (strBytes "SIP/2.0")
    [13, 10]
  exact ⟨h1.1 (by decide) (by decide), h2.2.1 (by decide) (by decide)⟩

/-- Witness for the C9 amended theorem on a concrete completed shutdown. -/
theorem provider_stop_waits_registry_unchanged_witness :
    (⟨[7], 0, true, true, true⟩ : ProvState).transactions =
      (⟨[7], 0, false, false, false⟩ : ProvState).transactions ∧
    ((⟨[7], 0, true, true, true⟩ : ProvState).stopReturned = true →
      (⟨[7], 0, true, true, true⟩ : ProvState).tasks = 0 ∧
      (⟨[7], 0, true, true, true⟩ : ProvState).txAllClosed = true) :=
  provider_stop_waits_registry_unchanged ⟨[7], 0, false, false, false⟩
    ⟨[7], 0, true, true, true⟩ rfl
    (Relation.ReflTransGen.tail
      (Relation.ReflTransGen.single
        (ProvStep.stopSignal ⟨[7], 0, false, false, false⟩ rfl))
      (ProvStep.stopWait ⟨[7], 0, true, true, false⟩ rfl rfl rfl))

end Sip
